import Mathlib

/-!
# Split-keyboard matrix scan (keyboards/dactyl_ff/matrix.c)

A shallow embedding of the matrix scanning, debouncing and half-link code of
`keyboards/dactyl_ff/matrix.c`, followed by theorems about it.

Conventions of the embedding.

* The C file-level statics (`debouncing`, `error_count`, `matrix`,
  `matrix_debouncing`) and the transport buffers become fields of `State`;
  every C function becomes a function from `State` to `State` (paired with its
  return value when it has one).
* Arrays are total maps from the index to the stored value; a store
  `a[i] = v` is `arr_set a i v`.
* `uint8_t` values are natural numbers reduced `% 256` at every store that can
  overflow; `matrix_row_t` values are reduced `% 2 ^ ROW_BITS`.
* What the hardware and the transport library deliver during one call is an
  explicit input: the column pin levels seen while each row is selected, the
  return values of the transport calls and the bytes they deliver.
-/

set_option maxRecDepth 100000

namespace Dactyl

/-- Build-time configuration: the macros of `config.h` and the types of
`matrix.h` that `matrix.c` uses but does not define, and the half identity
`isLeftHand` of `split_util`. The loops of `matrix.c` count rows in a `uint8_t`
(and `matrix_rows` returns one), so the row count fits in 8 bits;
`matrix_row_t` is an unsigned type of `ROW_BITS` bits, at least a byte;
`INT_BITS` is the width of `int` on the target. -/
structure Config where
  MATRIX_ROWS : Nat
  MATRIX_COLS : Nat
  DEBOUNCE : Nat
  ROW_BITS : Nat
  INT_BITS : Nat
  isLeftHand : Bool
  USE_I2C : Bool
  rows_fit : MATRIX_ROWS ≤ 255
  row_bits_ge : 8 ≤ ROW_BITS

/-- The constant `#define ERROR_DISCONNECT_COUNT 5`. -/
def ERROR_DISCONNECT_COUNT : Nat := 5

/-- The constant `static const int ROWS_PER_HAND = MATRIX_ROWS/2;`. -/
def ROWS_PER_HAND (cfg : Config) : Nat := cfg.MATRIX_ROWS / 2

/-- Column pin levels while one row is selected: `true` is a high level. -/
abbrev PinLevels := Nat → Bool

/-- Hardware seen by one scan: `hw i x` is the level of the input pin of
column `x` at the moment `read_cols` runs with row `i` selected. -/
abbrev Hardware := Nat → PinLevels

/-- What the transport library does during one transaction: the return value
of `serial_update_buffers`, the return values of the three I2C calls that can
fail, and the bytes delivered (byte `i` is what ends up in
`serial_slave_buffer[i]`, respectively what the `i`-th `i2c_master_read`
returns). -/
structure LinkInput where
  serial_ret : Nat
  i2c_start_write : Nat
  i2c_write : Nat
  i2c_start_read : Nat
  rx : Nat → Nat

/-- The mutable state of `matrix.c` together with the link-fault LED (driven by
`TXLED0` / `TXLED1`) and the two transport buffers. -/
structure State where
  debouncing : Nat
  error_count : Nat
  matrix : Nat → Nat
  matrix_debouncing : Nat → Nat
  txled : Bool
  serial_slave_buffer : Nat → Nat
  i2c_slave_buffer : Nat → Nat

/-- Array store `a[i] = v`. -/
def arr_set (a : Nat → Nat) (i v : Nat) : Nat → Nat :=
  fun j => if j = i then v else a j

/-- The loop `for (i = 0; i < n; i++) body(i)`. -/
def forLoop {σ : Type} (n : Nat) (body : Nat → σ → σ) (s : σ) : σ :=
  match n with
  | 0 => s
  | k + 1 => body k (forLoop k body s)

/-- State at program start: C zero-initialises the static arrays,
`debouncing` starts at `DEBOUNCE` (stored in a `uint8_t`) and `error_count`
at 0. The LED level at power-on is a parameter. -/
def bootState (cfg : Config) (led : Bool) : State :=
  { debouncing := cfg.DEBOUNCE % 256
    error_count := 0
    matrix := fun _ => 0
    matrix_debouncing := fun _ => 0
    txled := led
    serial_slave_buffer := fun _ => 0
    i2c_slave_buffer := fun _ => 0 }

/-- Row offset of this half: `isLeftHand ? 0 : ROWS_PER_HAND`. -/
def offset (cfg : Config) : Nat :=
  if cfg.isLeftHand then 0 else ROWS_PER_HAND cfg

/-- Row offset of the other half: `isLeftHand ? ROWS_PER_HAND : 0`. -/
def slaveOffset (cfg : Config) : Nat :=
  if cfg.isLeftHand then ROWS_PER_HAND cfg else 0

/-- The `int` expression `1 << x`, wrapped to a two's complement `int` of
`INT_BITS` bits (what avr-gcc produces when the shift reaches the sign bit
or beyond). -/
def int_shl1 (cfg : Config) (x : Nat) : Int :=
  let v := (2 ^ x) % (2 ^ cfg.INT_BITS)
  if v < 2 ^ (cfg.INT_BITS - 1) then (v : Int) else (v : Int) - 2 ^ cfg.INT_BITS

/-- Conversion of an `int` to `matrix_row_t`. -/
def to_row (cfg : Config) (v : Int) : Nat :=
  (v % (2 ^ cfg.ROW_BITS : Int)).toNat

/-- Function `read_cols`: column `x` contributes `1 << x` when its pin reads
low and 0 when it reads high. -/
def read_cols (cfg : Config) (pin : PinLevels) : Nat :=
  forLoop cfg.MATRIX_COLS
    (fun x result => result ||| to_row cfg (if pin x then 0 else int_shl1 cfg x)) 0

/-- Body of the first loop of `_matrix_scan` for row `i`: select the row, read
the columns, and on a difference with `matrix_debouncing[i+offset]` store the
reading there and restart the counter. -/
def sample_row (cfg : Config) (hw : Hardware) (i : Nat) (s : State) : State :=
  let cols := read_cols cfg (hw i)
  if s.matrix_debouncing (i + offset cfg) ≠ cols then
    { s with
      matrix_debouncing := arr_set s.matrix_debouncing (i + offset cfg) cols
      debouncing := cfg.DEBOUNCE % 256 }
  else s

/-- First loop of `_matrix_scan` (lines 134-143). -/
def sample_local_rows (cfg : Config) (hw : Hardware) (s : State) : State :=
  forLoop (ROWS_PER_HAND cfg) (sample_row cfg hw) s

/-- Body of the commit loop: `matrix[i+offset] = matrix_debouncing[i+offset]`. -/
def commit_row (cfg : Config) (i : Nat) (s : State) : State :=
  { s with matrix := arr_set s.matrix (i + offset cfg) (s.matrix_debouncing (i + offset cfg)) }

/-- Second half of `_matrix_scan` (lines 145-153): decrement a non-zero
counter; when it reaches zero copy the pending local rows into `matrix`. -/
def tick_debounce (cfg : Config) (s : State) : State :=
  if s.debouncing ≠ 0 then
    let s1 := { s with debouncing := s.debouncing - 1 }
    if s1.debouncing ≠ 0 then s1
    else forLoop (ROWS_PER_HAND cfg) (commit_row cfg) s1
  else s

/-- Function `_matrix_scan`: sample the local rows, run the debounce step,
return 1. -/
def _matrix_scan (cfg : Config) (hw : Hardware) (s : State) : Nat × State :=
  (1, tick_debounce cfg (sample_local_rows cfg hw s))

/-- Function `serial_transaction`: `serial_update_buffers` leaves the received
bytes in `serial_slave_buffer`; on a non-zero return the function returns 1,
otherwise it copies the buffer into the rows of the other half. -/
def serial_transaction (cfg : Config) (l : LinkInput) (s : State) : Nat × State :=
  let s1 := { s with serial_slave_buffer := fun i => l.rx i % 256 }
  if l.serial_ret ≠ 0 then (1, s1)
  else
    (0, forLoop (ROWS_PER_HAND cfg)
      (fun i t => { t with
        matrix := arr_set t.matrix (slaveOffset cfg + i)
          (t.serial_slave_buffer i % 2 ^ cfg.ROW_BITS) }) s1)

/-- Function `i2c_transaction`: any of the three bus calls returning non-zero
jumps to `i2c_error` and returns that value; otherwise `ROWS_PER_HAND - 1`
bytes are read with ACK and a last one with NACK into the rows of the other
half. -/
def i2c_transaction (cfg : Config) (l : LinkInput) (s : State) : Nat × State :=
  if l.i2c_start_write ≠ 0 then (l.i2c_start_write, s)
  else if l.i2c_write ≠ 0 then (l.i2c_write, s)
  else if l.i2c_start_read ≠ 0 then (l.i2c_start_read, s)
  else
    let s1 := forLoop (ROWS_PER_HAND cfg - 1)
      (fun i t => { t with
        matrix := arr_set t.matrix (slaveOffset cfg + i)
          (l.rx i % 256 % 2 ^ cfg.ROW_BITS) }) s
    let i := ROWS_PER_HAND cfg - 1
    (0, { s1 with
      matrix := arr_set s1.matrix (slaveOffset cfg + i) (l.rx i % 256 % 2 ^ cfg.ROW_BITS) })

/-- The transaction selected by the build (`#ifdef USE_I2C`). -/
def transaction (cfg : Config) (l : LinkInput) (s : State) : Nat × State :=
  if cfg.USE_I2C then i2c_transaction cfg l s else serial_transaction cfg l s

/-- The weak hook `matrix_scan_user`: empty. -/
def matrix_scan_user (s : State) : State := s

/-- The weak hook `matrix_scan_kb`. -/
def matrix_scan_kb (s : State) : State := matrix_scan_user s

/-- The weak hook `matrix_scan_quantum`. -/
def matrix_scan_quantum (s : State) : State := matrix_scan_kb s

/-- The hook `matrix_init_user` (the keymap only prints a debug line). -/
def matrix_init_user (s : State) : State := s

/-- The weak hook `matrix_init_kb`. -/
def matrix_init_kb (s : State) : State := matrix_init_user s

/-- The weak hook `matrix_init_quantum`. -/
def matrix_init_quantum (s : State) : State := matrix_init_kb s

/-- Lines 213-233 of `matrix_scan`: run the transaction; on failure switch the
LED on, count the error in the `uint8_t` counter and, once the count exceeds
`ERROR_DISCONNECT_COUNT`, zero the rows of the other half; on success switch
the LED off and clear the count. -/
def link_update (cfg : Config) (l : LinkInput) (s : State) : State :=
  let r := transaction cfg l s
  if r.1 ≠ 0 then
    let s1 := { r.2 with txled := true }
    let s2 := { s1 with error_count := (s1.error_count + 1) % 256 }
    if s2.error_count > ERROR_DISCONNECT_COUNT then
      forLoop (ROWS_PER_HAND cfg)
        (fun i t => { t with matrix := arr_set t.matrix (slaveOffset cfg + i) 0 }) s2
    else s2
  else
    { r.2 with txled := false, error_count := 0 }

/-- Function `matrix_scan`: local scan, link update, hook; returns the value
of `_matrix_scan` as a `uint8_t`. -/
def matrix_scan (cfg : Config) (hw : Hardware) (l : LinkInput) (s : State) : Nat × State :=
  let r := _matrix_scan cfg hw s
  (r.1 % 256, matrix_scan_quantum (link_update cfg l r.2))

/-- Function `matrix_slave_scan`: local scan, then copy the local rows into the
transport buffer of the build (a `uint8_t` array). -/
def matrix_slave_scan (cfg : Config) (hw : Hardware) (s : State) : State :=
  let s1 := (_matrix_scan cfg hw s).2
  let off := if cfg.isLeftHand then 0 else cfg.MATRIX_ROWS / 2
  if cfg.USE_I2C then
    forLoop (ROWS_PER_HAND cfg)
      (fun i t => { t with
        i2c_slave_buffer := arr_set t.i2c_slave_buffer i (t.matrix (off + i) % 256) }) s1
  else
    forLoop (ROWS_PER_HAND cfg)
      (fun i t => { t with
        serial_slave_buffer := arr_set t.serial_slave_buffer i (t.matrix (off + i) % 256) }) s1

/-- Function `matrix_init`: clears both matrices (the LED and pin set-up touch
no state of this file), then runs the init hook. -/
def matrix_init (cfg : Config) (s : State) : State :=
  matrix_init_quantum
    (forLoop cfg.MATRIX_ROWS
      (fun i t => { t with
        matrix := arr_set t.matrix i 0
        matrix_debouncing := arr_set t.matrix_debouncing i 0 }) s)

/-- Function `matrix_is_modified`: false while the counter is non-zero. -/
def matrix_is_modified (s : State) : Bool :=
  if s.debouncing ≠ 0 then false else true

/-- Function `matrix_is_on`: `matrix[row] & ((matrix_row_t)1 << col)` as a
`bool`; the shifted one lives in the promoted type of `matrix_row_t`. -/
def matrix_is_on (cfg : Config) (s : State) (row col : Nat) : Bool :=
  (s.matrix row &&& ((1 <<< col) % 2 ^ (max cfg.ROW_BITS cfg.INT_BITS))) ≠ 0

/-- Function `matrix_get_row`. -/
def matrix_get_row (s : State) (row : Nat) : Nat := s.matrix row

/-- The state after `n` calls of `_matrix_scan`, call number `k` (from 0)
seeing the hardware `hw k`. -/
def local_ticks (cfg : Config) (hw : Nat → Hardware) : Nat → State → State
  | 0, s => s
  | n + 1, s => (_matrix_scan cfg (hw n) (local_ticks cfg hw n s)).2

/-- The state after `n` calls of `matrix_scan`, call number `k` (from 0) seeing
the hardware `hw k` and the transport behaviour `link k`. -/
def scan_ticks (cfg : Config) (hw : Nat → Hardware) (link : Nat → LinkInput) :
    Nat → State → State
  | 0, s => s
  | n + 1, s => (matrix_scan cfg (hw n) (link n) (scan_ticks cfg hw link n s)).2

/-- Whether the transaction of the build reports failure for the transport
behaviour `l` (its return value is non-zero). -/
def link_fails (cfg : Config) (l : LinkInput) : Bool :=
  if cfg.USE_I2C then
    (l.i2c_start_write != 0) || (l.i2c_write != 0) || (l.i2c_start_read != 0)
  else l.serial_ret != 0

/-- One call of the public entry points of the driver. -/
inductive Call where
  | init : Call
  | scan : Hardware → LinkInput → Call
  | slave_scan : Hardware → Call

/-- Effect of one call on the state. -/
def Call.apply (cfg : Config) : Call → State → State
  | Call.init, s => matrix_init cfg s
  | Call.scan hw l, s => (matrix_scan cfg hw l s).2
  | Call.slave_scan hw, s => matrix_slave_scan cfg hw s

/-- Effect of a sequence of calls, first call first. -/
def run (cfg : Config) : List Call → State → State
  | [], s => s
  | c :: cs, s => run cfg cs (c.apply cfg s)

/-- Rows of `matrix` that belong to this half: `[0, ROWS_PER_HAND)` on the
left half, `[ROWS_PER_HAND, MATRIX_ROWS)` on the right half. -/
def isLocalRow (cfg : Config) (r : Nat) : Prop :=
  if cfg.isLeftHand then r < ROWS_PER_HAND cfg
  else ROWS_PER_HAND cfg ≤ r ∧ r < cfg.MATRIX_ROWS

/-- Rows of `matrix` that belong to the other half. -/
def isRemoteRow (cfg : Config) (r : Nat) : Prop :=
  if cfg.isLeftHand then ROWS_PER_HAND cfg ≤ r ∧ r < cfg.MATRIX_ROWS
  else r < ROWS_PER_HAND cfg

instance (cfg : Config) (r : Nat) : Decidable (isLocalRow cfg r) := by
  unfold isLocalRow; infer_instance

instance (cfg : Config) (r : Nat) : Decidable (isRemoteRow cfg r) := by
  unfold isRemoteRow; infer_instance

/-- Hardware on which `read_cols` returns, for every row, the low
`MATRIX_COLS` bits of `v i`: the pin of column `x` is low exactly when bit `x`
of `v i` is set. -/
def hw_of_rows (v : Nat → Nat) : Hardware :=
  fun i x => !(v i).testBit x

/-- A left-half build with 8 rows of 6 columns and the default `DEBOUNCE` of
5, serial transport, 16-bit `int`. -/
def cfgLeft : Config :=
  { MATRIX_ROWS := 8, MATRIX_COLS := 6, DEBOUNCE := 5, ROW_BITS := 8, INT_BITS := 16
    isLeftHand := true, USE_I2C := false
    rows_fit := by decide, row_bits_ge := by decide }

/-- A right-half build with 8 rows of 6 columns and `DEBOUNCE` 3, I2C
transport. -/
def cfgRight : Config :=
  { MATRIX_ROWS := 8, MATRIX_COLS := 6, DEBOUNCE := 3, ROW_BITS := 8, INT_BITS := 16
    isLeftHand := false, USE_I2C := true
    rows_fit := by decide, row_bits_ge := by decide }

/-- A transport behaviour that fails on either transport. -/
def linkDown : LinkInput :=
  { serial_ret := 1, i2c_start_write := 1, i2c_write := 0, i2c_start_read := 0
    rx := fun _ => 0 }

/-- A transport behaviour that succeeds on either transport and delivers byte
`rx i` for row `i`. -/
def linkUp (rx : Nat → Nat) : LinkInput :=
  { serial_ret := 0, i2c_start_write := 0, i2c_write := 0, i2c_start_read := 0, rx := rx }

/-- Instability of a scan: some freshly sampled local row differs from the
pending row `matrix_debouncing[i+offset]` held before the scan. -/
def unstable (cfg : Config) (hw : Hardware) (s : State) : Prop :=
  ∃ i, i < ROWS_PER_HAND cfg ∧ s.matrix_debouncing (i + offset cfg) ≠ read_cols cfg (hw i)

instance (cfg : Config) (hw : Hardware) (s : State) : Decidable (unstable cfg hw s) := by
  unfold unstable; infer_instance

/-- Row `r` lies in the block of `ROWS_PER_HAND` rows that starts at `base`. -/
def inBlock (cfg : Config) (base r : Nat) : Prop :=
  base ≤ r ∧ r < base + ROWS_PER_HAND cfg

instance (cfg : Config) (base r : Nat) : Decidable (inBlock cfg base r) := by
  unfold inBlock; infer_instance

/-- Counter value after the sampling loop of a scan, before the decrement. -/
def counter_after_sampling (cfg : Config) (hw : Hardware) (s : State) : Nat :=
  if unstable cfg hw s then cfg.DEBOUNCE % 256 else s.debouncing

/-- Hardware with no key pressed. -/
def keysUp : Hardware := hw_of_rows (fun _ => 0)

/-- Hardware with exactly the key in local row 2, column 3 pressed. -/
def key23Down : Hardware := hw_of_rows (fun i => if i = 2 then 8 else 0)

/-- Hardware with exactly the key in local row 1, column 2 pressed. -/
def key12Down : Hardware := hw_of_rows (fun i => if i = 1 then 4 else 0)

/-- The left half five scans after power-on with no key pressed: the counter
has run down to 0 and both matrices are zero. -/
def settledLeft : State :=
  local_ticks cfgLeft (fun _ => keysUp) 5 (bootState cfgLeft false)

/-- The right half three scans after power-on with no key pressed. -/
def settledRight : State :=
  local_ticks cfgRight (fun _ => keysUp) 3 (bootState cfgRight false)

/-- The left half at link error count 0 with the rows of the other half
cached as 1: one scan after power-on on which the transaction succeeded and
delivered 1 for every row. -/
def cachedLeft : State :=
  scan_ticks cfgLeft (fun _ => keysUp) (fun _ => linkUp (fun _ => 1)) 1 (bootState cfgLeft false)

/-- The right half after seven scans with the link down: error count 7, the
rows of the other half zeroed. -/
def disconnectedRight : State :=
  scan_ticks cfgRight (fun _ => keysUp) (fun _ => linkDown) 7 (bootState cfgRight false)

/-- The transport buffer the slave fills in this build: `i2c_slave_buffer`
with `USE_I2C`, `serial_slave_buffer` otherwise. -/
def slave_buffer (cfg : Config) (s : State) : Nat → Nat :=
  if cfg.USE_I2C then s.i2c_slave_buffer else s.serial_slave_buffer

/-- The state after `n` calls of `matrix_slave_scan`, call number `k` (from 0)
seeing the hardware `hw k`. -/
def slave_ticks (cfg : Config) (hw : Nat → Hardware) : Nat → State → State
  | 0, s => s
  | n + 1, s => matrix_slave_scan cfg (hw n) (slave_ticks cfg hw n s)

/-- Modelled from the spec: `bitpop16` of `util.h` is called by
`matrix_key_count` but is not part of the sources; it is taken to be what its
name and its use for `key_count()` say, the number of set bits of its
`uint16_t` argument (returned as a `uint8_t`, at most 16). -/
def bitpop16 (bits : Nat) : Nat :=
  ((Finset.range 16).filter (fun b => (bits % 2 ^ 16).testBit b = true)).card

/-- Function `matrix_key_count`: the sum over all rows of `bitpop16(matrix[i])`
accumulated in a `uint8_t`. -/
def matrix_key_count (cfg : Config) (s : State) : Nat :=
  forLoop cfg.MATRIX_ROWS (fun i count => (count + bitpop16 (s.matrix i)) % 256) 0

/-- A left-half build with 10 columns, hence 16-bit rows, serial transport. -/
def cfgWide : Config :=
  { MATRIX_ROWS := 8, MATRIX_COLS := 10, DEBOUNCE := 5, ROW_BITS := 16, INT_BITS := 16
    isLeftHand := true, USE_I2C := false
    rows_fit := by decide, row_bits_ge := by decide }

/-- A left-half build with `DEBOUNCE` defined as 0. -/
def cfgNoDebounce : Config :=
  { MATRIX_ROWS := 8, MATRIX_COLS := 6, DEBOUNCE := 0, ROW_BITS := 8, INT_BITS := 16
    isLeftHand := true, USE_I2C := false
    rows_fit := by decide, row_bits_ge := by decide }

/-- Hardware with exactly the key in local row 0, column 8 pressed. -/
def key08Down : Hardware := hw_of_rows (fun i => if i = 0 then 256 else 0)

/-- The committed rows of this half agree with the pending ones whenever the
counter is 0. -/
def local_rows_settled (cfg : Config) (s : State) : Prop :=
  s.debouncing = 0 →
    ∀ i, i < ROWS_PER_HAND cfg → s.matrix (i + offset cfg) = s.matrix_debouncing (i + offset cfg)

/-! ## Loops and array stores -/

theorem arr_set_apply (a : Nat → Nat) (i v j : Nat) :
    arr_set a i v j = if j = i then v else a j := rfl

theorem forLoop_zero {σ : Type} (body : Nat → σ → σ) (s : σ) :
    forLoop 0 body s = s := rfl

theorem forLoop_succ {σ : Type} (n : Nat) (body : Nat → σ → σ) (s : σ) :
    forLoop (n + 1) body s = body n (forLoop n body s) := rfl

/-- A property kept by every iteration is kept by the loop. -/
theorem forLoop_keeps {σ : Type} (P : σ → Prop) (body : Nat → σ → σ)
    (hbody : ∀ i t, P t → P (body i t)) (n : Nat) (s : σ) (hs : P s) :
    P (forLoop n body s) := by
  induction n with
  | zero => exact hs
  | succ k ih => exact hbody k _ ih

/-! ## The sampling loop of `_matrix_scan` -/

theorem sample_row_pending (cfg : Config) (hw : Hardware) (i : Nat) (s : State) (r : Nat) :
    (sample_row cfg hw i s).matrix_debouncing r =
      if r = i + offset cfg then read_cols cfg (hw i) else s.matrix_debouncing r := by
  unfold sample_row
  by_cases h : s.matrix_debouncing (i + offset cfg) = read_cols cfg (hw i)
  · by_cases hr : r = i + offset cfg
    · simp [h, hr]
    · simp [h, hr]
  · by_cases hr : r = i + offset cfg
    · simp [h, hr, arr_set_apply]
    · simp [h, hr, arr_set_apply]

theorem sample_row_counter (cfg : Config) (hw : Hardware) (i : Nat) (s : State) :
    (sample_row cfg hw i s).debouncing =
      if s.matrix_debouncing (i + offset cfg) ≠ read_cols cfg (hw i)
      then cfg.DEBOUNCE % 256 else s.debouncing := by
  unfold sample_row
  by_cases h : s.matrix_debouncing (i + offset cfg) = read_cols cfg (hw i)
  · simp [h]
  · simp [h]

theorem sample_row_rest (cfg : Config) (hw : Hardware) (i : Nat) (s : State) :
    (sample_row cfg hw i s).matrix = s.matrix ∧
    (sample_row cfg hw i s).error_count = s.error_count ∧
    (sample_row cfg hw i s).txled = s.txled ∧
    (sample_row cfg hw i s).serial_slave_buffer = s.serial_slave_buffer ∧
    (sample_row cfg hw i s).i2c_slave_buffer = s.i2c_slave_buffer := by
  unfold sample_row
  by_cases h : s.matrix_debouncing (i + offset cfg) = read_cols cfg (hw i)
  · simp [h]
  · simp [h]

theorem sample_loop_rest (cfg : Config) (hw : Hardware) (n : Nat) (s : State) :
    (forLoop n (sample_row cfg hw) s).matrix = s.matrix ∧
    (forLoop n (sample_row cfg hw) s).error_count = s.error_count ∧
    (forLoop n (sample_row cfg hw) s).txled = s.txled ∧
    (forLoop n (sample_row cfg hw) s).serial_slave_buffer = s.serial_slave_buffer ∧
    (forLoop n (sample_row cfg hw) s).i2c_slave_buffer = s.i2c_slave_buffer := by
  refine forLoop_keeps
    (fun t => t.matrix = s.matrix ∧ t.error_count = s.error_count ∧ t.txled = s.txled ∧
      t.serial_slave_buffer = s.serial_slave_buffer ∧ t.i2c_slave_buffer = s.i2c_slave_buffer)
    (sample_row cfg hw) ?_ n s ⟨rfl, rfl, rfl, rfl, rfl⟩
  intro i t ht
  obtain ⟨h1, h2, h3, h4, h5⟩ := sample_row_rest cfg hw i t
  obtain ⟨g1, g2, g3, g4, g5⟩ := ht
  exact ⟨h1.trans g1, h2.trans g2, h3.trans g3, h4.trans g4, h5.trans g5⟩

theorem sample_loop_pending (cfg : Config) (hw : Hardware) (n : Nat) (s : State) (r : Nat) :
    (forLoop n (sample_row cfg hw) s).matrix_debouncing r =
      if offset cfg ≤ r ∧ r < offset cfg + n then read_cols cfg (hw (r - offset cfg))
      else s.matrix_debouncing r := by
  induction n with
  | zero =>
    have h0 : ¬ (offset cfg ≤ r ∧ r < offset cfg + 0) := by omega
    rw [forLoop_zero, if_neg h0]
  | succ k ih =>
    rw [forLoop_succ, sample_row_pending, ih]
    by_cases hr : r = k + offset cfg
    · have h1 : offset cfg ≤ r ∧ r < offset cfg + (k + 1) := by omega
      have h2 : r - offset cfg = k := by omega
      rw [if_pos hr, if_pos h1, h2]
    · by_cases h1 : offset cfg ≤ r ∧ r < offset cfg + k
      · have h2 : offset cfg ≤ r ∧ r < offset cfg + (k + 1) := by omega
        rw [if_neg hr, if_pos h1, if_pos h2]
      · have h2 : ¬ (offset cfg ≤ r ∧ r < offset cfg + (k + 1)) := by omega
        rw [if_neg hr, if_neg h1, if_neg h2]

theorem sample_loop_counter (cfg : Config) (hw : Hardware) (n : Nat) (s : State) :
    (forLoop n (sample_row cfg hw) s).debouncing =
      if ∃ i, i < n ∧ s.matrix_debouncing (i + offset cfg) ≠ read_cols cfg (hw i)
      then cfg.DEBOUNCE % 256 else s.debouncing := by
  induction n with
  | zero => simp [forLoop_zero]
  | succ k ih =>
    rw [forLoop_succ, sample_row_counter, sample_loop_pending, ih]
    have hk : ¬ (offset cfg ≤ k + offset cfg ∧ k + offset cfg < offset cfg + k) := by omega
    rw [if_neg hk]
    by_cases hd : s.matrix_debouncing (k + offset cfg) = read_cols cfg (hw k)
    · rw [if_neg (not_not.mpr hd)]
      by_cases he : ∃ i, i < k ∧ s.matrix_debouncing (i + offset cfg) ≠ read_cols cfg (hw i)
      · have he2 : ∃ i, i < k + 1 ∧
            s.matrix_debouncing (i + offset cfg) ≠ read_cols cfg (hw i) := by
          obtain ⟨i, hi, hne⟩ := he
          exact ⟨i, by omega, hne⟩
        rw [if_pos he, if_pos he2]
      · have he2 : ¬ ∃ i, i < k + 1 ∧
            s.matrix_debouncing (i + offset cfg) ≠ read_cols cfg (hw i) := by
          rintro ⟨i, hi, hne⟩
          by_cases hik : i = k
          · subst hik; exact hne hd
          · exact he ⟨i, by omega, hne⟩
        rw [if_neg he, if_neg he2]
    · rw [if_pos hd]
      have he2 : ∃ i, i < k + 1 ∧
          s.matrix_debouncing (i + offset cfg) ≠ read_cols cfg (hw i) :=
        ⟨k, by omega, hd⟩
      rw [if_pos he2]

/-- Pending rows after the sampling loop: the local block holds the fresh
readings, every other row is untouched. -/
theorem sample_local_rows_pending (cfg : Config) (hw : Hardware) (s : State) (r : Nat) :
    (sample_local_rows cfg hw s).matrix_debouncing r =
      if inBlock cfg (offset cfg) r then read_cols cfg (hw (r - offset cfg))
      else s.matrix_debouncing r := by
  unfold sample_local_rows inBlock
  exact sample_loop_pending cfg hw _ s r

/-- Counter after the sampling loop. -/
theorem sample_local_rows_counter (cfg : Config) (hw : Hardware) (s : State) :
    (sample_local_rows cfg hw s).debouncing =
      if unstable cfg hw s then cfg.DEBOUNCE % 256 else s.debouncing := by
  unfold sample_local_rows unstable
  exact sample_loop_counter cfg hw _ s

theorem sample_local_rows_rest (cfg : Config) (hw : Hardware) (s : State) :
    (sample_local_rows cfg hw s).matrix = s.matrix ∧
    (sample_local_rows cfg hw s).error_count = s.error_count ∧
    (sample_local_rows cfg hw s).txled = s.txled ∧
    (sample_local_rows cfg hw s).serial_slave_buffer = s.serial_slave_buffer ∧
    (sample_local_rows cfg hw s).i2c_slave_buffer = s.i2c_slave_buffer := by
  unfold sample_local_rows
  exact sample_loop_rest cfg hw _ s

/-! ## Loops that store into a block of `matrix` rows -/

/-- A loop whose iteration `i` stores `v i` into `matrix[base + i]`, under an
invariant `P` of the loop, writes exactly the rows `base .. base + n - 1`. -/
theorem block_write_matrix (P : State → Prop) (base : Nat) (v : Nat → Nat)
    (body : Nat → State → State)
    (hP : ∀ i t, P t → P (body i t))
    (hm : ∀ i t, P t → (body i t).matrix = arr_set t.matrix (base + i) (v i))
    (n : Nat) (s : State) (hs : P s) (r : Nat) :
    (forLoop n body s).matrix r =
      if base ≤ r ∧ r < base + n then v (r - base) else s.matrix r := by
  induction n with
  | zero =>
    have h0 : ¬ (base ≤ r ∧ r < base + 0) := by omega
    rw [forLoop_zero, if_neg h0]
  | succ k ih =>
    have hk : P (forLoop k body s) := forLoop_keeps P body hP k s hs
    rw [forLoop_succ, hm k _ hk, arr_set_apply, ih]
    by_cases hr : r = base + k
    · have h1 : base ≤ r ∧ r < base + (k + 1) := by omega
      have h2 : r - base = k := by omega
      rw [if_pos hr, if_pos h1, h2]
    · by_cases h1 : base ≤ r ∧ r < base + k
      · have h2 : base ≤ r ∧ r < base + (k + 1) := by omega
        rw [if_neg hr, if_pos h1, if_pos h2]
      · have h2 : ¬ (base ≤ r ∧ r < base + (k + 1)) := by omega
        rw [if_neg hr, if_neg h1, if_neg h2]

/-- Fields other than `matrix` are untouched by a loop whose iterations only
store into `matrix`. -/
theorem block_write_rest (body : Nat → State → State)
    (hb : ∀ i t, ∃ m, body i t = { t with matrix := m }) (n : Nat) (s : State) :
    (forLoop n body s).debouncing = s.debouncing ∧
    (forLoop n body s).error_count = s.error_count ∧
    (forLoop n body s).matrix_debouncing = s.matrix_debouncing ∧
    (forLoop n body s).txled = s.txled ∧
    (forLoop n body s).serial_slave_buffer = s.serial_slave_buffer ∧
    (forLoop n body s).i2c_slave_buffer = s.i2c_slave_buffer := by
  refine forLoop_keeps
    (fun t => t.debouncing = s.debouncing ∧ t.error_count = s.error_count ∧
      t.matrix_debouncing = s.matrix_debouncing ∧ t.txled = s.txled ∧
      t.serial_slave_buffer = s.serial_slave_buffer ∧
      t.i2c_slave_buffer = s.i2c_slave_buffer)
    body ?_ n s ⟨rfl, rfl, rfl, rfl, rfl, rfl⟩
  intro i t ht
  obtain ⟨m, hm⟩ := hb i t
  rw [hm]
  exact ht

/-! ## The debounce step of `_matrix_scan` -/

theorem commit_loop_matrix (cfg : Config) (n : Nat) (s : State) (r : Nat) :
    (forLoop n (commit_row cfg) s).matrix r =
      if offset cfg ≤ r ∧ r < offset cfg + n then s.matrix_debouncing r else s.matrix r := by
  have h := block_write_matrix (fun t => t.matrix_debouncing = s.matrix_debouncing)
    (offset cfg) (fun i => s.matrix_debouncing (offset cfg + i)) (commit_row cfg)
    (fun i t ht => ht)
    (fun i t ht => by
      show arr_set t.matrix (i + offset cfg) (t.matrix_debouncing (i + offset cfg)) = _
      rw [ht, Nat.add_comm i (offset cfg)])
    n s rfl r
  rw [h]
  by_cases h1 : offset cfg ≤ r ∧ r < offset cfg + n
  · have h2 : offset cfg + (r - offset cfg) = r := by omega
    rw [if_pos h1, if_pos h1]
    show s.matrix_debouncing (offset cfg + (r - offset cfg)) = _
    rw [h2]
  · rw [if_neg h1, if_neg h1]

theorem commit_loop_rest (cfg : Config) (n : Nat) (s : State) :
    (forLoop n (commit_row cfg) s).debouncing = s.debouncing ∧
    (forLoop n (commit_row cfg) s).error_count = s.error_count ∧
    (forLoop n (commit_row cfg) s).matrix_debouncing = s.matrix_debouncing ∧
    (forLoop n (commit_row cfg) s).txled = s.txled ∧
    (forLoop n (commit_row cfg) s).serial_slave_buffer = s.serial_slave_buffer ∧
    (forLoop n (commit_row cfg) s).i2c_slave_buffer = s.i2c_slave_buffer :=
  block_write_rest (commit_row cfg) (fun _ _ => ⟨_, rfl⟩) n s

theorem tick_debounce_counter (cfg : Config) (s : State) :
    (tick_debounce cfg s).debouncing = s.debouncing - 1 := by
  unfold tick_debounce
  by_cases h0 : s.debouncing = 0
  · simp [h0]
  · by_cases h1 : s.debouncing - 1 = 0
    · simp [h0, h1, (commit_loop_rest cfg _ _).1]
    · simp [h0, h1]

theorem tick_debounce_matrix (cfg : Config) (s : State) (r : Nat) :
    (tick_debounce cfg s).matrix r =
      if s.debouncing = 1 ∧ inBlock cfg (offset cfg) r then s.matrix_debouncing r
      else s.matrix r := by
  unfold tick_debounce inBlock
  by_cases h0 : s.debouncing = 0
  · have hn : ¬ (s.debouncing = 1 ∧ offset cfg ≤ r ∧ r < offset cfg + ROWS_PER_HAND cfg) := by
      omega
    simp [h0]
  · by_cases h1 : s.debouncing - 1 = 0
    · have h1b : s.debouncing = 1 := by omega
      simp [h1b, commit_loop_matrix]
    · have hn : s.debouncing ≠ 1 := by omega
      simp [h0, h1, hn]

theorem tick_debounce_rest (cfg : Config) (s : State) :
    (tick_debounce cfg s).error_count = s.error_count ∧
    (tick_debounce cfg s).matrix_debouncing = s.matrix_debouncing ∧
    (tick_debounce cfg s).txled = s.txled ∧
    (tick_debounce cfg s).serial_slave_buffer = s.serial_slave_buffer ∧
    (tick_debounce cfg s).i2c_slave_buffer = s.i2c_slave_buffer := by
  unfold tick_debounce
  by_cases h0 : s.debouncing = 0
  · simp [h0]
  · by_cases h1 : s.debouncing - 1 = 0
    · obtain ⟨_, g2, g3, g4, g5, g6⟩ :=
        commit_loop_rest cfg (ROWS_PER_HAND cfg) { s with debouncing := s.debouncing - 1 }
      dsimp only
      rw [if_pos h0, if_neg (not_not.mpr h1)]
      exact ⟨g2, g3, g4, g5, g6⟩
    · simp [h0, h1]

/-! ## One call of `_matrix_scan` -/

theorem matrix_scan_local_counter (cfg : Config) (hw : Hardware) (s : State) :
    (_matrix_scan cfg hw s).2.debouncing = counter_after_sampling cfg hw s - 1 := by
  show (tick_debounce cfg (sample_local_rows cfg hw s)).debouncing = _
  rw [tick_debounce_counter, sample_local_rows_counter]
  rfl

theorem matrix_scan_local_pending (cfg : Config) (hw : Hardware) (s : State) (r : Nat) :
    (_matrix_scan cfg hw s).2.matrix_debouncing r =
      if inBlock cfg (offset cfg) r then read_cols cfg (hw (r - offset cfg))
      else s.matrix_debouncing r := by
  show (tick_debounce cfg (sample_local_rows cfg hw s)).matrix_debouncing r = _
  rw [(tick_debounce_rest cfg _).2.1, sample_local_rows_pending]

theorem matrix_scan_local_matrix (cfg : Config) (hw : Hardware) (s : State) (r : Nat) :
    (_matrix_scan cfg hw s).2.matrix r =
      if counter_after_sampling cfg hw s = 1 ∧ inBlock cfg (offset cfg) r
      then read_cols cfg (hw (r - offset cfg)) else s.matrix r := by
  show (tick_debounce cfg (sample_local_rows cfg hw s)).matrix r = _
  rw [tick_debounce_matrix, sample_local_rows_counter, sample_local_rows_pending,
    (sample_local_rows_rest cfg hw s).1]
  unfold counter_after_sampling
  by_cases h : (if unstable cfg hw s then cfg.DEBOUNCE % 256 else s.debouncing) = 1 ∧
      inBlock cfg (offset cfg) r
  · rw [if_pos h, if_pos h, if_pos h.2]
  · rw [if_neg h, if_neg h]

theorem matrix_scan_local_rest (cfg : Config) (hw : Hardware) (s : State) :
    (_matrix_scan cfg hw s).2.error_count = s.error_count ∧
    (_matrix_scan cfg hw s).2.txled = s.txled ∧
    (_matrix_scan cfg hw s).2.serial_slave_buffer = s.serial_slave_buffer ∧
    (_matrix_scan cfg hw s).2.i2c_slave_buffer = s.i2c_slave_buffer := by
  show (tick_debounce cfg (sample_local_rows cfg hw s)).error_count = _ ∧
    (tick_debounce cfg (sample_local_rows cfg hw s)).txled = _ ∧
    (tick_debounce cfg (sample_local_rows cfg hw s)).serial_slave_buffer = _ ∧
    (tick_debounce cfg (sample_local_rows cfg hw s)).i2c_slave_buffer = _
  obtain ⟨h1, _, h3, h4, h5⟩ := tick_debounce_rest cfg (sample_local_rows cfg hw s)
  obtain ⟨_, g2, g3, g4, g5⟩ := sample_local_rows_rest cfg hw s
  exact ⟨h1.trans g2, h3.trans g3, h4.trans g4, h5.trans g5⟩

/-! ## The transport transaction -/

theorem serial_transaction_ret (cfg : Config) (l : LinkInput) (s : State) :
    (serial_transaction cfg l s).1 = if l.serial_ret ≠ 0 then 1 else 0 := by
  unfold serial_transaction
  by_cases h : l.serial_ret = 0
  · simp [h]
  · simp [h]

theorem i2c_transaction_ret (cfg : Config) (l : LinkInput) (s : State) :
    (i2c_transaction cfg l s).1 ≠ 0 ↔
      (l.i2c_start_write ≠ 0 ∨ l.i2c_write ≠ 0 ∨ l.i2c_start_read ≠ 0) := by
  unfold i2c_transaction
  by_cases h1 : l.i2c_start_write = 0
  · by_cases h2 : l.i2c_write = 0
    · by_cases h3 : l.i2c_start_read = 0
      · simp [h1, h2, h3]
      · simp [h1, h2, h3]
    · simp [h1, h2]
  · simp [h1]

/-- The transaction of the build returns non-zero exactly when `link_fails`. -/
theorem transaction_ret (cfg : Config) (l : LinkInput) (s : State) :
    (transaction cfg l s).1 ≠ 0 ↔ link_fails cfg l = true := by
  unfold transaction link_fails
  by_cases hb : cfg.USE_I2C = true
  · rw [if_pos hb, if_pos hb, i2c_transaction_ret]
    simp [or_assoc]
  · rw [if_neg hb, if_neg hb, serial_transaction_ret]
    by_cases h : l.serial_ret = 0
    · simp [h]
    · simp [h]

theorem serial_transaction_fail (cfg : Config) (l : LinkInput) (s : State)
    (h : (serial_transaction cfg l s).1 ≠ 0) :
    (serial_transaction cfg l s).2 = { s with serial_slave_buffer := fun i => l.rx i % 256 } := by
  unfold serial_transaction at h ⊢
  by_cases h0 : l.serial_ret = 0
  · simp [h0] at h
  · simp [h0]

theorem i2c_transaction_fail (cfg : Config) (l : LinkInput) (s : State)
    (h : (i2c_transaction cfg l s).1 ≠ 0) :
    (i2c_transaction cfg l s).2 = s := by
  unfold i2c_transaction at h ⊢
  by_cases h1 : l.i2c_start_write = 0
  · by_cases h2 : l.i2c_write = 0
    · by_cases h3 : l.i2c_start_read = 0
      · simp [h1, h2, h3] at h
      · simp [h1, h2, h3]
    · simp [h1, h2]
  · simp [h1]

/-- A failed transaction changes nothing but (on the serial build) the receive
buffer. -/
theorem transaction_fail (cfg : Config) (l : LinkInput) (s : State)
    (h : (transaction cfg l s).1 ≠ 0) :
    (transaction cfg l s).2.matrix = s.matrix ∧
    (transaction cfg l s).2.matrix_debouncing = s.matrix_debouncing ∧
    (transaction cfg l s).2.debouncing = s.debouncing ∧
    (transaction cfg l s).2.error_count = s.error_count ∧
    (transaction cfg l s).2.txled = s.txled := by
  unfold transaction at h ⊢
  by_cases hb : cfg.USE_I2C = true
  · rw [if_pos hb] at h ⊢
    rw [i2c_transaction_fail cfg l s h]
    exact ⟨rfl, rfl, rfl, rfl, rfl⟩
  · rw [if_neg hb] at h ⊢
    rw [serial_transaction_fail cfg l s h]
    exact ⟨rfl, rfl, rfl, rfl, rfl⟩

theorem serial_transaction_ok_matrix (cfg : Config) (l : LinkInput) (s : State)
    (h : l.serial_ret = 0) (r : Nat) :
    (serial_transaction cfg l s).2.matrix r =
      if inBlock cfg (slaveOffset cfg) r
      then l.rx (r - slaveOffset cfg) % 256 % 2 ^ cfg.ROW_BITS else s.matrix r := by
  unfold serial_transaction inBlock
  dsimp only
  rw [if_neg (not_not.mpr h)]
  exact block_write_matrix (fun t => t.serial_slave_buffer = fun i => l.rx i % 256)
    (slaveOffset cfg) (fun i => l.rx i % 256 % 2 ^ cfg.ROW_BITS)
    (fun i t => { t with
      matrix := arr_set t.matrix (slaveOffset cfg + i)
        (t.serial_slave_buffer i % 2 ^ cfg.ROW_BITS) })
    (fun i t ht => ht)
    (fun i t ht => by
      show arr_set t.matrix (slaveOffset cfg + i) (t.serial_slave_buffer i % 2 ^ cfg.ROW_BITS) = _
      rw [ht])
    (ROWS_PER_HAND cfg) { s with serial_slave_buffer := fun i => l.rx i % 256 } rfl r

theorem serial_transaction_ok_rest (cfg : Config) (l : LinkInput) (s : State)
    (h : l.serial_ret = 0) :
    (serial_transaction cfg l s).2.debouncing = s.debouncing ∧
    (serial_transaction cfg l s).2.error_count = s.error_count ∧
    (serial_transaction cfg l s).2.matrix_debouncing = s.matrix_debouncing ∧
    (serial_transaction cfg l s).2.txled = s.txled := by
  unfold serial_transaction
  dsimp only
  rw [if_neg (not_not.mpr h)]
  obtain ⟨g1, g2, g3, g4, _, _⟩ := block_write_rest
    (fun i t => { t with
      matrix := arr_set t.matrix (slaveOffset cfg + i)
        (t.serial_slave_buffer i % 2 ^ cfg.ROW_BITS) })
    (fun _ _ => ⟨_, rfl⟩) (ROWS_PER_HAND cfg)
    { s with serial_slave_buffer := fun i => l.rx i % 256 }
  exact ⟨g1, g2, g3, g4⟩

theorem i2c_transaction_ok_matrix (cfg : Config) (l : LinkInput) (s : State)
    (h1 : l.i2c_start_write = 0) (h2 : l.i2c_write = 0) (h3 : l.i2c_start_read = 0)
    (r : Nat) :
    (i2c_transaction cfg l s).2.matrix r =
      if slaveOffset cfg ≤ r ∧ r < slaveOffset cfg + (ROWS_PER_HAND cfg - 1 + 1)
      then l.rx (r - slaveOffset cfg) % 256 % 2 ^ cfg.ROW_BITS else s.matrix r := by
  unfold i2c_transaction
  dsimp only
  rw [if_neg (not_not.mpr h1), if_neg (not_not.mpr h2), if_neg (not_not.mpr h3)]
  show arr_set _ _ _ r = _
  rw [arr_set_apply]
  have hloop := block_write_matrix (fun _ => True)
    (slaveOffset cfg) (fun i => l.rx i % 256 % 2 ^ cfg.ROW_BITS)
    (fun i t => { t with
        matrix := arr_set t.matrix (slaveOffset cfg + i)
          (l.rx i % 256 % 2 ^ cfg.ROW_BITS) })
    (fun _ _ _ => trivial) (fun _ _ _ => rfl) (ROWS_PER_HAND cfg - 1) s trivial r
  rw [hloop]
  by_cases hr : r = slaveOffset cfg + (ROWS_PER_HAND cfg - 1)
  · have hin : slaveOffset cfg ≤ r ∧ r < slaveOffset cfg + (ROWS_PER_HAND cfg - 1 + 1) := by
      omega
    have hsub : r - slaveOffset cfg = ROWS_PER_HAND cfg - 1 := by omega
    rw [if_pos hr, if_pos hin, hsub]
  · by_cases hin : slaveOffset cfg ≤ r ∧ r < slaveOffset cfg + (ROWS_PER_HAND cfg - 1)
    · have hin2 : slaveOffset cfg ≤ r ∧ r < slaveOffset cfg + (ROWS_PER_HAND cfg - 1 + 1) := by
        omega
      rw [if_neg hr, if_pos hin, if_pos hin2]
    · have hin2 : ¬ (slaveOffset cfg ≤ r ∧
          r < slaveOffset cfg + (ROWS_PER_HAND cfg - 1 + 1)) := by omega
      rw [if_neg hr, if_neg hin, if_neg hin2]

theorem i2c_transaction_ok_rest (cfg : Config) (l : LinkInput) (s : State)
    (h1 : l.i2c_start_write = 0) (h2 : l.i2c_write = 0) (h3 : l.i2c_start_read = 0) :
    (i2c_transaction cfg l s).2.debouncing = s.debouncing ∧
    (i2c_transaction cfg l s).2.error_count = s.error_count ∧
    (i2c_transaction cfg l s).2.matrix_debouncing = s.matrix_debouncing ∧
    (i2c_transaction cfg l s).2.txled = s.txled := by
  unfold i2c_transaction
  dsimp only
  rw [if_neg (not_not.mpr h1), if_neg (not_not.mpr h2), if_neg (not_not.mpr h3)]
  obtain ⟨g1, g2, g3, g4, _, _⟩ := block_write_rest
    (fun i t => { t with
        matrix := arr_set t.matrix (slaveOffset cfg + i)
          (l.rx i % 256 % 2 ^ cfg.ROW_BITS) })
    (fun _ _ => ⟨_, rfl⟩) (ROWS_PER_HAND cfg - 1) s
  exact ⟨g1, g2, g3, g4⟩

/-- A received byte fits in a `matrix_row_t`. -/
theorem byte_fits_row (cfg : Config) (v : Nat) : v % 256 % 2 ^ cfg.ROW_BITS = v % 256 := by
  apply Nat.mod_eq_of_lt
  have h1 : v % 256 < 256 := Nat.mod_lt _ (by decide)
  have h2 : 2 ^ 8 ≤ 2 ^ cfg.ROW_BITS := Nat.pow_le_pow_right (by decide) cfg.row_bits_ge
  have h3 : (2 : Nat) ^ 8 = 256 := by decide
  omega

theorem link_fails_false (cfg : Config) (l : LinkInput) (h : link_fails cfg l = false) :
    (cfg.USE_I2C = true → l.i2c_start_write = 0 ∧ l.i2c_write = 0 ∧ l.i2c_start_read = 0) ∧
    (cfg.USE_I2C = false → l.serial_ret = 0) := by
  unfold link_fails at h
  constructor
  · intro hb
    rw [if_pos hb] at h
    simpa [and_assoc] using h
  · intro hb
    have hb2 : ¬ cfg.USE_I2C = true := by simp [hb]
    rw [if_neg hb2] at h
    simpa using h

/-- Rows of the other half after a successful transaction: row
`slaveOffset + i` holds the byte received for it. -/
theorem transaction_ok_remote (cfg : Config) (l : LinkInput) (s : State)
    (h : link_fails cfg l = false) (i : Nat) (hi : i < ROWS_PER_HAND cfg) :
    (transaction cfg l s).2.matrix (slaveOffset cfg + i) = l.rx i % 256 := by
  obtain ⟨hi2c, hser⟩ := link_fails_false cfg l h
  unfold transaction
  by_cases hb : cfg.USE_I2C = true
  · obtain ⟨h1, h2, h3⟩ := hi2c hb
    rw [if_pos hb, i2c_transaction_ok_matrix cfg l s h1 h2 h3]
    have hin : slaveOffset cfg ≤ slaveOffset cfg + i ∧
        slaveOffset cfg + i < slaveOffset cfg + (ROWS_PER_HAND cfg - 1 + 1) := by omega
    rw [if_pos hin, byte_fits_row, Nat.add_sub_cancel_left]
  · have hb2 : cfg.USE_I2C = false := by simpa using hb
    rw [if_neg hb, serial_transaction_ok_matrix cfg l s (hser hb2)]
    have hin : inBlock cfg (slaveOffset cfg) (slaveOffset cfg + i) := by
      unfold inBlock; omega
    rw [if_pos hin, byte_fits_row, Nat.add_sub_cancel_left]

/-- Rows outside the block of the other half are untouched by a successful
transaction (on the I2C build when the half has at least one row). -/
theorem transaction_ok_frame (cfg : Config) (l : LinkInput) (s : State)
    (h : link_fails cfg l = false) (hrows : cfg.USE_I2C = false ∨ 0 < ROWS_PER_HAND cfg)
    (r : Nat) (hr : ¬ inBlock cfg (slaveOffset cfg) r) :
    (transaction cfg l s).2.matrix r = s.matrix r := by
  obtain ⟨hi2c, hser⟩ := link_fails_false cfg l h
  unfold transaction
  by_cases hb : cfg.USE_I2C = true
  · obtain ⟨h1, h2, h3⟩ := hi2c hb
    have hpos : 0 < ROWS_PER_HAND cfg := by
      rcases hrows with h0 | h0
      · rw [hb] at h0; exact absurd h0 (by decide)
      · exact h0
    rw [if_pos hb, i2c_transaction_ok_matrix cfg l s h1 h2 h3]
    have hin : ¬ (slaveOffset cfg ≤ r ∧
        r < slaveOffset cfg + (ROWS_PER_HAND cfg - 1 + 1)) := by
      unfold inBlock at hr; omega
    rw [if_neg hin]
  · have hb2 : cfg.USE_I2C = false := by simpa using hb
    rw [if_neg hb, serial_transaction_ok_matrix cfg l s (hser hb2), if_neg hr]

theorem transaction_ok_rest (cfg : Config) (l : LinkInput) (s : State)
    (h : link_fails cfg l = false) :
    (transaction cfg l s).2.debouncing = s.debouncing ∧
    (transaction cfg l s).2.error_count = s.error_count ∧
    (transaction cfg l s).2.matrix_debouncing = s.matrix_debouncing ∧
    (transaction cfg l s).2.txled = s.txled := by
  obtain ⟨hi2c, hser⟩ := link_fails_false cfg l h
  unfold transaction
  by_cases hb : cfg.USE_I2C = true
  · obtain ⟨h1, h2, h3⟩ := hi2c hb
    rw [if_pos hb]
    exact i2c_transaction_ok_rest cfg l s h1 h2 h3
  · have hb2 : cfg.USE_I2C = false := by simpa using hb
    rw [if_neg hb]
    exact serial_transaction_ok_rest cfg l s (hser hb2)

/-! ## The link update of `matrix_scan` -/

theorem zero_loop_matrix (cfg : Config) (n : Nat) (s : State) (r : Nat) :
    (forLoop n
      (fun i t => { t with matrix := arr_set t.matrix (slaveOffset cfg + i) 0 }) s).matrix r =
      if slaveOffset cfg ≤ r ∧ r < slaveOffset cfg + n then 0 else s.matrix r :=
  block_write_matrix (fun _ => True) (slaveOffset cfg) (fun _ => 0)
    (fun i t => { t with matrix := arr_set t.matrix (slaveOffset cfg + i) 0 })
    (fun _ _ _ => trivial) (fun _ _ _ => rfl) n s trivial r

theorem zero_loop_rest (cfg : Config) (n : Nat) (s : State) :
    (forLoop n
      (fun i t => { t with matrix := arr_set t.matrix (slaveOffset cfg + i) 0 }) s).debouncing
        = s.debouncing ∧
    (forLoop n
      (fun i t => { t with matrix := arr_set t.matrix (slaveOffset cfg + i) 0 }) s).error_count
        = s.error_count ∧
    (forLoop n
      (fun i t => { t with
        matrix := arr_set t.matrix (slaveOffset cfg + i) 0 }) s).matrix_debouncing
        = s.matrix_debouncing ∧
    (forLoop n
      (fun i t => { t with matrix := arr_set t.matrix (slaveOffset cfg + i) 0 }) s).txled
        = s.txled := by
  obtain ⟨g1, g2, g3, g4, _, _⟩ := block_write_rest
    (fun i t => { t with matrix := arr_set t.matrix (slaveOffset cfg + i) 0 })
    (fun _ _ => ⟨_, rfl⟩) n s
  exact ⟨g1, g2, g3, g4⟩

/-- Effect of the link update when the transaction fails. -/
theorem link_update_fail (cfg : Config) (l : LinkInput) (s : State)
    (h : link_fails cfg l = true) :
    (link_update cfg l s).error_count = (s.error_count + 1) % 256 ∧
    (link_update cfg l s).txled = true ∧
    (link_update cfg l s).debouncing = s.debouncing ∧
    (link_update cfg l s).matrix_debouncing = s.matrix_debouncing ∧
    ∀ r, (link_update cfg l s).matrix r =
      if ERROR_DISCONNECT_COUNT < (s.error_count + 1) % 256 ∧ inBlock cfg (slaveOffset cfg) r
      then 0 else s.matrix r := by
  have hret : (transaction cfg l s).1 ≠ 0 := (transaction_ret cfg l s).mpr h
  obtain ⟨f1, f2, f3, f4, _⟩ := transaction_fail cfg l s hret
  unfold link_update
  dsimp only
  rw [if_pos hret, f4]
  by_cases hgt : (s.error_count + 1) % 256 > ERROR_DISCONNECT_COUNT
  · rw [if_pos hgt]
    obtain ⟨g1, g2, g3, g4⟩ := zero_loop_rest cfg (ROWS_PER_HAND cfg)
      { (transaction cfg l s).2 with
        txled := true, error_count := (s.error_count + 1) % 256 }
    refine ⟨g2, g4, g1.trans f3, g3.trans f2, ?_⟩
    intro r
    rw [zero_loop_matrix]
    unfold inBlock
    by_cases hin : slaveOffset cfg ≤ r ∧ r < slaveOffset cfg + ROWS_PER_HAND cfg
    · rw [if_pos hin, if_pos ⟨hgt, hin⟩]
    · have hn : ¬ (ERROR_DISCONNECT_COUNT < (s.error_count + 1) % 256 ∧
          slaveOffset cfg ≤ r ∧ r < slaveOffset cfg + ROWS_PER_HAND cfg) := fun hh => hin hh.2
      rw [if_neg hin, if_neg hn]
      show (transaction cfg l s).2.matrix r = _
      rw [f1]
  · rw [if_neg hgt]
    refine ⟨rfl, rfl, f3, f2, ?_⟩
    intro r
    have hn : ¬ (ERROR_DISCONNECT_COUNT < (s.error_count + 1) % 256 ∧
        inBlock cfg (slaveOffset cfg) r) := fun hh => hgt hh.1
    rw [if_neg hn]
    show (transaction cfg l s).2.matrix r = _
    rw [f1]

/-- Effect of the link update when the transaction succeeds. -/
theorem link_update_ok (cfg : Config) (l : LinkInput) (s : State)
    (h : link_fails cfg l = false) :
    (link_update cfg l s).error_count = 0 ∧
    (link_update cfg l s).txled = false ∧
    (link_update cfg l s).debouncing = s.debouncing ∧
    (link_update cfg l s).matrix_debouncing = s.matrix_debouncing ∧
    (link_update cfg l s).matrix = (transaction cfg l s).2.matrix := by
  have hret : ¬ (transaction cfg l s).1 ≠ 0 := by
    rw [transaction_ret, h]; decide
  obtain ⟨f1, _, f3, _⟩ := transaction_ok_rest cfg l s h
  unfold link_update
  dsimp only
  rw [if_neg hret]
  exact ⟨rfl, rfl, f1, f3, rfl⟩

/-- The link update never touches the counter or the pending rows. -/
theorem link_update_local (cfg : Config) (l : LinkInput) (s : State) :
    (link_update cfg l s).debouncing = s.debouncing ∧
    (link_update cfg l s).matrix_debouncing = s.matrix_debouncing := by
  by_cases h : link_fails cfg l = true
  · obtain ⟨_, _, h3, h4, _⟩ := link_update_fail cfg l s h
    exact ⟨h3, h4⟩
  · have h2 : link_fails cfg l = false := by simpa using h
    obtain ⟨_, _, h3, h4, _⟩ := link_update_ok cfg l s h2
    exact ⟨h3, h4⟩

theorem matrix_scan_state (cfg : Config) (hw : Hardware) (l : LinkInput) (s : State) :
    (matrix_scan cfg hw l s).2 = link_update cfg l (_matrix_scan cfg hw s).2 := rfl

/-- The two halves' blocks do not overlap. -/
theorem blocks_disjoint (cfg : Config) (r : Nat)
    (h1 : inBlock cfg (offset cfg) r) (h2 : inBlock cfg (slaveOffset cfg) r) : False := by
  unfold inBlock offset slaveOffset at *
  by_cases hl : cfg.isLeftHand = true
  · rw [if_pos hl] at h1 h2; omega
  · rw [if_neg hl] at h1 h2; omega

/-- With an even row count the local block is the local range of rows. -/
theorem isLocalRow_iff (cfg : Config) (hEven : cfg.MATRIX_ROWS % 2 = 0) (r : Nat) :
    isLocalRow cfg r ↔ inBlock cfg (offset cfg) r := by
  unfold isLocalRow inBlock offset ROWS_PER_HAND
  by_cases hl : cfg.isLeftHand = true
  · rw [if_pos hl, if_pos hl]; omega
  · rw [if_neg hl, if_neg hl]; omega

/-- With an even row count the other half's block is the remote range of
rows. -/
theorem isRemoteRow_iff (cfg : Config) (hEven : cfg.MATRIX_ROWS % 2 = 0) (r : Nat) :
    isRemoteRow cfg r ↔ inBlock cfg (slaveOffset cfg) r := by
  unfold isRemoteRow inBlock slaveOffset ROWS_PER_HAND
  by_cases hl : cfg.isLeftHand = true
  · rw [if_pos hl, if_pos hl]; omega
  · rw [if_neg hl, if_neg hl]; omega

/-! ## Runs of `_matrix_scan` on constant readings -/

/-- After any scan the pending local rows equal the readings of that scan. -/
theorem stable_after_scan (cfg : Config) (hw : Hardware) (s : State) :
    ¬ unstable cfg hw (_matrix_scan cfg hw s).2 := by
  rintro ⟨i, hi, hne⟩
  apply hne
  have hin : inBlock cfg (offset cfg) (i + offset cfg) := by
    unfold inBlock; omega
  rw [matrix_scan_local_pending, if_pos hin, Nat.add_sub_cancel]

theorem counter_after_sampling_stable (cfg : Config) (hw : Hardware) (s : State)
    (h : ¬ unstable cfg hw s) : counter_after_sampling cfg hw s = s.debouncing := by
  unfold counter_after_sampling
  rw [if_neg h]

theorem counter_after_sampling_unstable (cfg : Config) (hw : Hardware) (s : State)
    (h : unstable cfg hw s) : counter_after_sampling cfg hw s = cfg.DEBOUNCE % 256 := by
  unfold counter_after_sampling
  rw [if_pos h]

/-- Closed form of the state after `n + 1` scans that all see the readings
`hw`: with `d` the counter value after the sampling of the first scan, the
counter is `d - (n + 1)`, the pending local rows are the readings, and the
committed local rows are the readings once `d` scans have run (`1 ≤ d`), the
committed rows being untouched before. -/
theorem const_run (cfg : Config) (hw : Hardware) (s : State) (n : Nat) :
    (local_ticks cfg (fun _ => hw) (n + 1) s).debouncing =
      counter_after_sampling cfg hw s - (n + 1) ∧
    ¬ unstable cfg hw (local_ticks cfg (fun _ => hw) (n + 1) s) ∧
    ∀ r, (local_ticks cfg (fun _ => hw) (n + 1) s).matrix r =
      if (1 ≤ counter_after_sampling cfg hw s ∧ counter_after_sampling cfg hw s ≤ n + 1) ∧
        inBlock cfg (offset cfg) r
      then read_cols cfg (hw (r - offset cfg)) else s.matrix r := by
  induction n with
  | zero =>
    refine ⟨matrix_scan_local_counter cfg hw s, stable_after_scan cfg hw s, ?_⟩
    intro r
    show (_matrix_scan cfg hw s).2.matrix r = _
    rw [matrix_scan_local_matrix]
    by_cases h : counter_after_sampling cfg hw s = 1 ∧ inBlock cfg (offset cfg) r
    · have h2 : (1 ≤ counter_after_sampling cfg hw s ∧
          counter_after_sampling cfg hw s ≤ 0 + 1) ∧ inBlock cfg (offset cfg) r :=
        ⟨by omega, h.2⟩
      rw [if_pos h, if_pos h2]
    · have h2 : ¬ ((1 ≤ counter_after_sampling cfg hw s ∧
          counter_after_sampling cfg hw s ≤ 0 + 1) ∧ inBlock cfg (offset cfg) r) := by
        rintro ⟨h3, h4⟩
        exact h ⟨by omega, h4⟩
      rw [if_neg h, if_neg h2]
  | succ k ih =>
    obtain ⟨ihc, ihs, ihm⟩ := ih
    have hc : counter_after_sampling cfg hw (local_ticks cfg (fun _ => hw) (k + 1) s) =
        counter_after_sampling cfg hw s - (k + 1) := by
      rw [counter_after_sampling_stable cfg hw _ ihs, ihc]
    refine ⟨?_, stable_after_scan cfg hw _, ?_⟩
    · show (_matrix_scan cfg hw (local_ticks cfg (fun _ => hw) (k + 1) s)).2.debouncing = _
      rw [matrix_scan_local_counter, hc]
      omega
    · intro r
      show (_matrix_scan cfg hw (local_ticks cfg (fun _ => hw) (k + 1) s)).2.matrix r = _
      rw [matrix_scan_local_matrix, hc, ihm r]
      by_cases hin : inBlock cfg (offset cfg) r
      · by_cases h1 : counter_after_sampling cfg hw s - (k + 1) = 1
        · have h2 : (1 ≤ counter_after_sampling cfg hw s ∧
              counter_after_sampling cfg hw s ≤ k + 1 + 1) ∧ inBlock cfg (offset cfg) r :=
            ⟨by omega, hin⟩
          rw [if_pos ⟨h1, hin⟩, if_pos h2]
        · have hn : ¬ (counter_after_sampling cfg hw s - (k + 1) = 1 ∧
              inBlock cfg (offset cfg) r) := fun hh => h1 hh.1
          rw [if_neg hn]
          by_cases h3 : (1 ≤ counter_after_sampling cfg hw s ∧
              counter_after_sampling cfg hw s ≤ k + 1) ∧ inBlock cfg (offset cfg) r
          · have h4 : (1 ≤ counter_after_sampling cfg hw s ∧
                counter_after_sampling cfg hw s ≤ k + 1 + 1) ∧ inBlock cfg (offset cfg) r :=
              ⟨by omega, hin⟩
            rw [if_pos h3, if_pos h4]
          · have h4 : ¬ ((1 ≤ counter_after_sampling cfg hw s ∧
                counter_after_sampling cfg hw s ≤ k + 1 + 1) ∧
                inBlock cfg (offset cfg) r) := by
              rintro ⟨h5, _⟩
              exact h3 ⟨by omega, hin⟩
            rw [if_neg h3, if_neg h4]
      · have hn : ¬ (counter_after_sampling cfg hw s - (k + 1) = 1 ∧
            inBlock cfg (offset cfg) r) := fun hh => hin hh.2
        have h3 : ¬ ((1 ≤ counter_after_sampling cfg hw s ∧
            counter_after_sampling cfg hw s ≤ k + 1) ∧ inBlock cfg (offset cfg) r) :=
          fun hh => hin hh.2
        have h4 : ¬ ((1 ≤ counter_after_sampling cfg hw s ∧
            counter_after_sampling cfg hw s ≤ k + 1 + 1) ∧ inBlock cfg (offset cfg) r) :=
          fun hh => hin hh.2
        rw [if_neg hn, if_neg h3, if_neg h4]

/-- No scan of a constant run commits before `d` scans have run, `d` being the
counter value after the sampling of the first scan. -/
theorem const_run_before (cfg : Config) (hw : Hardware) (s : State) (n : Nat)
    (hn : n < counter_after_sampling cfg hw s) (r : Nat) :
    (local_ticks cfg (fun _ => hw) n s).matrix r = s.matrix r := by
  cases n with
  | zero => rfl
  | succ k =>
    rw [(const_run cfg hw s k).2.2 r]
    have h : ¬ ((1 ≤ counter_after_sampling cfg hw s ∧
        counter_after_sampling cfg hw s ≤ k + 1) ∧ inBlock cfg (offset cfg) r) := by
      rintro ⟨h1, _⟩
      omega
    rw [if_neg h]

/-- The scan number `d` of a constant run commits the readings, `d ≥ 1` being
the counter value after the sampling of the first scan. -/
theorem const_run_commit (cfg : Config) (hw : Hardware) (s : State)
    (hd : 1 ≤ counter_after_sampling cfg hw s) (i : Nat) (hi : i < ROWS_PER_HAND cfg) :
    (local_ticks cfg (fun _ => hw) (counter_after_sampling cfg hw s) s).matrix
      (i + offset cfg) = read_cols cfg (hw i) := by
  obtain ⟨k, hk⟩ : ∃ k, counter_after_sampling cfg hw s = k + 1 := ⟨_, (Nat.sub_add_cancel hd).symm⟩
  have hin : inBlock cfg (offset cfg) (i + offset cfg) := by
    unfold inBlock; omega
  have h := (const_run cfg hw s k).2.2 (i + offset cfg)
  rw [if_pos ⟨⟨hd, by omega⟩, hin⟩, Nat.add_sub_cancel] at h
  rw [hk]
  exact h

/-! ## Debounce timing -/

/-- C1, counterexample to the claim as stated. On the left half with
`DEBOUNCE = 5`, from a settled all-released state, the key (2,3) goes down on
one scan (the scan that observes the instability) and stays down. After only
four stable scans following that scan, fewer than the threshold, row 2 of the
committed matrix has already changed. -/
theorem debounce_commits_before_threshold_stable_ticks :
    cfgLeft.DEBOUNCE = 5 ∧
    unstable cfgLeft key23Down settledLeft ∧
    ¬ unstable cfgLeft key23Down (local_ticks cfgLeft (fun _ => key23Down) 1 settledLeft) ∧
    matrix_get_row (local_ticks cfgLeft (fun _ => key23Down) (1 + 4) settledLeft) 2
      ≠ matrix_get_row settledLeft 2 := by
  decide

/-- C1, as amended. The readings are `hw_old` for `m + 1` scans and then
`hw_new` for ever, the two differing in bit `b` of local row `i0`. With
`1 ≤ DEBOUNCE ≤ 255`, the scan that first samples the change counts as the
first scan of the window: after each of the first `DEBOUNCE - 1` scans with the
new readings every committed row is what it was before the change, and after
scan number `DEBOUNCE` (that is, after `DEBOUNCE - 1` stable scans following
the scan that observed the change) every committed local row is the new
reading. -/
theorem debounce_commit_timing (cfg : Config) (s0 : State) (hw_old hw_new : Hardware)
    (m i0 b : Nat) (hD1 : 1 ≤ cfg.DEBOUNCE) (hD2 : cfg.DEBOUNCE ≤ 255)
    (hi : i0 < ROWS_PER_HAND cfg)
    (hflip : (read_cols cfg (hw_old i0)).testBit b ≠ (read_cols cfg (hw_new i0)).testBit b) :
    (∀ n, n < cfg.DEBOUNCE → ∀ r,
      matrix_get_row (local_ticks cfg (fun _ => hw_new) n
          (local_ticks cfg (fun _ => hw_old) (m + 1) s0)) r
        = matrix_get_row (local_ticks cfg (fun _ => hw_old) (m + 1) s0) r) ∧
    (∀ i, i < ROWS_PER_HAND cfg →
      matrix_get_row (local_ticks cfg (fun _ => hw_new) cfg.DEBOUNCE
          (local_ticks cfg (fun _ => hw_old) (m + 1) s0)) (i + offset cfg)
        = read_cols cfg (hw_new i)) := by
  have hstable : ¬ unstable cfg hw_old (local_ticks cfg (fun _ => hw_old) (m + 1) s0) :=
    (const_run cfg hw_old s0 m).2.1
  have hold : (local_ticks cfg (fun _ => hw_old) (m + 1) s0).matrix_debouncing (i0 + offset cfg)
      = read_cols cfg (hw_old i0) := by
    by_contra hne
    exact hstable ⟨i0, hi, hne⟩
  have hun : unstable cfg hw_new (local_ticks cfg (fun _ => hw_old) (m + 1) s0) := by
    refine ⟨i0, hi, ?_⟩
    rw [hold]
    intro heq
    apply hflip
    rw [heq]
  have hc : counter_after_sampling cfg hw_new (local_ticks cfg (fun _ => hw_old) (m + 1) s0)
      = cfg.DEBOUNCE := by
    rw [counter_after_sampling_unstable cfg hw_new _ hun]
    exact Nat.mod_eq_of_lt (by omega)
  constructor
  · intro n hn r
    exact const_run_before cfg hw_new _ n (by rw [hc]; exact hn) r
  · intro i hi2
    have h := const_run_commit cfg hw_new _ (by rw [hc]; exact hD1) i hi2
    rw [hc] at h
    exact h

/-- C1, instance of the amended statement: left half, `DEBOUNCE = 5`, all keys
released for one scan after power-on, then key (2,3) down. -/
theorem debounce_commit_timing_witness :
    (∀ n, n < cfgLeft.DEBOUNCE → ∀ r,
      matrix_get_row (local_ticks cfgLeft (fun _ => key23Down) n
          (local_ticks cfgLeft (fun _ => keysUp) (0 + 1) (bootState cfgLeft false))) r
        = matrix_get_row
          (local_ticks cfgLeft (fun _ => keysUp) (0 + 1) (bootState cfgLeft false)) r) ∧
    (∀ i, i < ROWS_PER_HAND cfgLeft →
      matrix_get_row (local_ticks cfgLeft (fun _ => key23Down) cfgLeft.DEBOUNCE
          (local_ticks cfgLeft (fun _ => keysUp) (0 + 1) (bootState cfgLeft false)))
          (i + offset cfgLeft)
        = read_cols cfgLeft (key23Down i)) :=
  debounce_commit_timing cfgLeft (bootState cfgLeft false) keysUp key23Down 0 2 3
    (by decide) (by decide) (by decide) (by decide)

/-! ## Scans with the link: the local part -/

/-- The link update leaves the rows of this half alone. -/
theorem link_update_local_rows (cfg : Config) (l : LinkInput) (s : State) (r : Nat)
    (hr : inBlock cfg (offset cfg) r) : (link_update cfg l s).matrix r = s.matrix r := by
  have hnr : ¬ inBlock cfg (slaveOffset cfg) r := fun h => blocks_disjoint cfg r hr h
  by_cases h : link_fails cfg l = true
  · rw [(link_update_fail cfg l s h).2.2.2.2 r]
    have hn : ¬ (ERROR_DISCONNECT_COUNT < (s.error_count + 1) % 256 ∧
        inBlock cfg (slaveOffset cfg) r) := fun hh => hnr hh.2
    rw [if_neg hn]
  · have h2 : link_fails cfg l = false := by simpa using h
    rw [(link_update_ok cfg l s h2).2.2.2.2]
    apply transaction_ok_frame cfg l s h2 _ r hnr
    right
    unfold inBlock at hr
    omega

/-- Two states that agree on the counter, the pending rows and the committed
local rows still do so after a scan on the same readings. -/
theorem matrix_scan_local_congr (cfg : Config) (hw : Hardware) (a b : State)
    (hd : a.debouncing = b.debouncing) (hp : a.matrix_debouncing = b.matrix_debouncing)
    (hm : ∀ r, inBlock cfg (offset cfg) r → a.matrix r = b.matrix r) :
    (_matrix_scan cfg hw a).2.debouncing = (_matrix_scan cfg hw b).2.debouncing ∧
    (_matrix_scan cfg hw a).2.matrix_debouncing = (_matrix_scan cfg hw b).2.matrix_debouncing ∧
    ∀ r, inBlock cfg (offset cfg) r →
      (_matrix_scan cfg hw a).2.matrix r = (_matrix_scan cfg hw b).2.matrix r := by
  have hu : unstable cfg hw a ↔ unstable cfg hw b := by
    unfold unstable
    rw [hp]
  have hc : counter_after_sampling cfg hw a = counter_after_sampling cfg hw b := by
    unfold counter_after_sampling
    by_cases h : unstable cfg hw a
    · rw [if_pos h, if_pos (hu.mp h)]
    · rw [if_neg h, if_neg (fun hb => h (hu.mpr hb)), hd]
  refine ⟨?_, ?_, ?_⟩
  · rw [matrix_scan_local_counter, matrix_scan_local_counter, hc]
  · funext r
    rw [matrix_scan_local_pending, matrix_scan_local_pending, hp]
  · intro r hr
    rw [matrix_scan_local_matrix, matrix_scan_local_matrix, hc, hm r hr]

/-- The counter, the pending rows and the committed local rows after `n` calls
of `matrix_scan` are those after `n` calls of `_matrix_scan` on the same
readings, whatever the link does. -/
theorem scan_ticks_local (cfg : Config) (hw : Nat → Hardware) (link : Nat → LinkInput)
    (n : Nat) (s : State) :
    (scan_ticks cfg hw link n s).debouncing = (local_ticks cfg hw n s).debouncing ∧
    (scan_ticks cfg hw link n s).matrix_debouncing
      = (local_ticks cfg hw n s).matrix_debouncing ∧
    ∀ r, inBlock cfg (offset cfg) r →
      (scan_ticks cfg hw link n s).matrix r = (local_ticks cfg hw n s).matrix r := by
  induction n with
  | zero => exact ⟨rfl, rfl, fun _ _ => rfl⟩
  | succ k ih =>
    obtain ⟨ihd, ihp, ihm⟩ := ih
    obtain ⟨c1, c2, c3⟩ := matrix_scan_local_congr cfg (hw k) _ _ ihd ihp ihm
    obtain ⟨l1, l2⟩ := link_update_local cfg (link k)
      (_matrix_scan cfg (hw k) (scan_ticks cfg hw link k s)).2
    refine ⟨?_, ?_, ?_⟩
    · show (matrix_scan cfg (hw k) (link k) (scan_ticks cfg hw link k s)).2.debouncing = _
      rw [matrix_scan_state, l1]
      exact c1
    · show (matrix_scan cfg (hw k) (link k) (scan_ticks cfg hw link k s)).2.matrix_debouncing
        = _
      rw [matrix_scan_state, l2]
      exact c2
    · intro r hr
      show (matrix_scan cfg (hw k) (link k) (scan_ticks cfg hw link k s)).2.matrix r = _
      rw [matrix_scan_state, link_update_local_rows cfg _ _ r hr]
      exact c3 r hr

/-- Bit 3 of a row read through `matrix_is_on`. -/
theorem matrix_is_on_col3 (cfg : Config) (s : State) (row : Nat) :
    matrix_is_on cfg s row 3 = (s.matrix row).testBit 3 := by
  have h8 : 1 <<< 3 = 8 := by decide
  have hmax : 8 ≤ max cfg.ROW_BITS cfg.INT_BITS := le_trans cfg.row_bits_ge (le_max_left _ _)
  have hpow : 2 ^ 8 ≤ 2 ^ max cfg.ROW_BITS cfg.INT_BITS :=
    Nat.pow_le_pow_right (by decide) hmax
  have hmod : 8 % 2 ^ max cfg.ROW_BITS cfg.INT_BITS = 8 := by
    apply Nat.mod_eq_of_lt
    have : (2 : Nat) ^ 8 = 256 := by decide
    omega
  unfold matrix_is_on
  rw [h8, hmod]
  have hand : s.matrix row &&& 8 = ((s.matrix row).testBit 3).toNat * 8 := by
    have := Nat.and_two_pow (s.matrix row) 3
    simpa using this
  rw [hand]
  cases (s.matrix row).testBit 3 <;> simp

/-- C2. Left half, `ROWS_PER_HAND = 4`, `DEBOUNCE = 5`, settled state (pending
local rows equal to the committed ones, key (2,3) off; the counter, 0 in a
settled state, may hold any value since scan 1 restarts it). From scan 1 on
the reading of row 2 has bit 3 set and the readings stay the same. Whatever
the link does, after each of scans 1 to 4 `matrix_is_modified` is false and
`matrix_is_on(2,3)` is still false; after scan 5 both are true. -/
theorem concrete_debounce_scenario (cfg : Config) (s : State) (hw : Hardware)
    (link : Nat → LinkInput)
    (hL : cfg.isLeftHand = true) (hR : ROWS_PER_HAND cfg = 4) (hD : cfg.DEBOUNCE = 5)
    (hp : ∀ i, i < 4 → s.matrix_debouncing i = s.matrix i)
    (hclear : matrix_is_on cfg s 2 3 = false)
    (hflip : (read_cols cfg (hw 2)).testBit 3 = true) :
    (∀ n, 1 ≤ n → n ≤ 4 →
      matrix_is_modified (scan_ticks cfg (fun _ => hw) link n s) = false ∧
      matrix_is_on cfg (scan_ticks cfg (fun _ => hw) link n s) 2 3 = false) ∧
    matrix_is_modified (scan_ticks cfg (fun _ => hw) link 5 s) = true ∧
    matrix_is_on cfg (scan_ticks cfg (fun _ => hw) link 5 s) 2 3 = true := by
  have hoff : offset cfg = 0 := by
    unfold offset; rw [if_pos hL]
  have hin : inBlock cfg (offset cfg) 2 := by
    unfold inBlock; rw [hoff, hR]; omega
  have hbit : (s.matrix 2).testBit 3 = false := by
    rw [← matrix_is_on_col3]; exact hclear
  have hun : unstable cfg hw s := by
    refine ⟨2, by rw [hR]; omega, ?_⟩
    rw [hoff]
    show s.matrix_debouncing 2 ≠ _
    rw [hp 2 (by omega)]
    intro heq
    rw [heq, hflip] at hbit
    exact absurd hbit (by decide)
  have hcnt : counter_after_sampling cfg hw s = 5 := by
    rw [counter_after_sampling_unstable cfg hw s hun, hD]
  refine ⟨?_, ?_, ?_⟩
  · intro n h1 h4
    obtain ⟨a1, _, a3⟩ := scan_ticks_local cfg (fun _ => hw) link n s
    obtain ⟨k, hk⟩ : ∃ k, n = k + 1 := ⟨n - 1, by omega⟩
    have hdeb : (local_ticks cfg (fun _ => hw) n s).debouncing = 5 - n := by
      rw [hk, (const_run cfg hw s k).1, hcnt]
    constructor
    · unfold matrix_is_modified
      rw [a1, hdeb]
      have : 5 - n ≠ 0 := by omega
      rw [if_pos this]
    · rw [matrix_is_on_col3, a3 2 hin,
        const_run_before cfg hw s n (by rw [hcnt]; omega) 2]
      exact hbit
  · obtain ⟨a1, _, _⟩ := scan_ticks_local cfg (fun _ => hw) link 5 s
    unfold matrix_is_modified
    rw [a1, (const_run cfg hw s 4).1, hcnt]
    rfl
  · obtain ⟨_, _, a3⟩ := scan_ticks_local cfg (fun _ => hw) link 5 s
    have hcommit := const_run_commit cfg hw s (by rw [hcnt]; omega) 2 (by rw [hR]; omega)
    rw [hcnt, hoff] at hcommit
    rw [matrix_is_on_col3, a3 2 hin, hcommit]
    exact hflip

/-- C2, instance: the settled left half, key (2,3) going down, the link down
throughout. -/
theorem concrete_debounce_scenario_witness :
    (∀ n, 1 ≤ n → n ≤ 4 →
      matrix_is_modified
        (scan_ticks cfgLeft (fun _ => key23Down) (fun _ => linkDown) n settledLeft) = false ∧
      matrix_is_on cfgLeft
        (scan_ticks cfgLeft (fun _ => key23Down) (fun _ => linkDown) n settledLeft) 2 3
          = false) ∧
    matrix_is_modified
      (scan_ticks cfgLeft (fun _ => key23Down) (fun _ => linkDown) 5 settledLeft) = true ∧
    matrix_is_on cfgLeft
      (scan_ticks cfgLeft (fun _ => key23Down) (fun _ => linkDown) 5 settledLeft) 2 3 = true :=
  concrete_debounce_scenario cfgLeft settledLeft key23Down (fun _ => linkDown)
    (by decide) (by decide) (by decide) (by decide) (by decide) (by decide)

/-- C3, counterexample to the claim as stated. On the right half with
`DEBOUNCE = 3`, from a settled all-released state: one scan observes the key
(1,2) going down, and the second of the `DEBOUNCE - 1 = 2` stable scans that
follow already commits it (row 5 of the matrix changes), before any second
unstable scan. -/
theorem commit_during_first_window :
    cfgRight.DEBOUNCE = 3 ∧
    unstable cfgRight key12Down settledRight ∧
    ¬ unstable cfgRight key12Down (local_ticks cfgRight (fun _ => key12Down) 1 settledRight) ∧
    ¬ unstable cfgRight key12Down (local_ticks cfgRight (fun _ => key12Down) 2 settledRight) ∧
    matrix_get_row (local_ticks cfgRight (fun _ => key12Down) (1 + 2) settledRight) 5 = 4 ∧
    matrix_get_row settledRight 5 = 0 := by
  decide

/-- C3, as amended. A scan on which a local reading differs from the pending
row restarts the counter at `DEBOUNCE` (here `2 ≤ DEBOUNCE ≤ 255`). For a scan
that observes instability (readings `hwA`), then `j ≤ DEBOUNCE - 2` stable
scans, then a scan that observes new readings `hwB`, then stable scans: no
committed row changes during the first `j + 1` scans, nor on the second
unstable scan, nor on the first `DEBOUNCE - 2` stable scans after it; the
commit of `hwB` happens on scan number `DEBOUNCE` of the second window. -/
theorem debounce_restart (cfg : Config) (s : State) (hwA hwB : Hardware) (j : Nat)
    (hD1 : 2 ≤ cfg.DEBOUNCE) (hD2 : cfg.DEBOUNCE ≤ 255)
    (hA : unstable cfg hwA s) (hj : j + 2 ≤ cfg.DEBOUNCE)
    (hB : ∃ i, i < ROWS_PER_HAND cfg ∧ read_cols cfg (hwA i) ≠ read_cols cfg (hwB i)) :
    (sample_local_rows cfg hwB (local_ticks cfg (fun _ => hwA) (j + 1) s)).debouncing
      = cfg.DEBOUNCE ∧
    (∀ n, n ≤ j + 1 → ∀ r,
      matrix_get_row (local_ticks cfg (fun _ => hwA) n s) r = matrix_get_row s r) ∧
    (∀ n, n < cfg.DEBOUNCE → ∀ r,
      matrix_get_row (local_ticks cfg (fun _ => hwB) n
        (local_ticks cfg (fun _ => hwA) (j + 1) s)) r = matrix_get_row s r) ∧
    (∀ i, i < ROWS_PER_HAND cfg →
      matrix_get_row (local_ticks cfg (fun _ => hwB) cfg.DEBOUNCE
        (local_ticks cfg (fun _ => hwA) (j + 1) s)) (i + offset cfg)
          = read_cols cfg (hwB i)) := by
  have hmod : cfg.DEBOUNCE % 256 = cfg.DEBOUNCE := Nat.mod_eq_of_lt (by omega)
  have hcA : counter_after_sampling cfg hwA s = cfg.DEBOUNCE := by
    rw [counter_after_sampling_unstable cfg hwA s hA, hmod]
  have hfirst : ∀ n, n ≤ j + 1 → ∀ r,
      (local_ticks cfg (fun _ => hwA) n s).matrix r = s.matrix r := by
    intro n hn r
    exact const_run_before cfg hwA s n (by rw [hcA]; omega) r
  have hstable : ¬ unstable cfg hwA (local_ticks cfg (fun _ => hwA) (j + 1) s) :=
    (const_run cfg hwA s j).2.1
  have hunB : unstable cfg hwB (local_ticks cfg (fun _ => hwA) (j + 1) s) := by
    obtain ⟨i, hi, hne⟩ := hB
    refine ⟨i, hi, ?_⟩
    have hold : (local_ticks cfg (fun _ => hwA) (j + 1) s).matrix_debouncing (i + offset cfg)
        = read_cols cfg (hwA i) := by
      by_contra hc
      exact hstable ⟨i, hi, hc⟩
    rw [hold]
    exact hne
  have hcB : counter_after_sampling cfg hwB (local_ticks cfg (fun _ => hwA) (j + 1) s)
      = cfg.DEBOUNCE := by
    rw [counter_after_sampling_unstable cfg hwB _ hunB, hmod]
  refine ⟨?_, hfirst, ?_, ?_⟩
  · rw [sample_local_rows_counter, if_pos hunB, hmod]
  · intro n hn r
    show (local_ticks cfg (fun _ => hwB) n _).matrix r = s.matrix r
    rw [const_run_before cfg hwB _ n (by rw [hcB]; exact hn) r]
    exact hfirst (j + 1) (le_refl _) r
  · intro i hi
    have h := const_run_commit cfg hwB _ (by rw [hcB]; omega) i hi
    rw [hcB] at h
    exact h

/-- C3, instance of the amended statement: right half, `DEBOUNCE = 3`, key
(1,2) observed down, one stable scan, then the key observed up again. -/
theorem debounce_restart_witness :
    (sample_local_rows cfgRight keysUp
      (local_ticks cfgRight (fun _ => key12Down) (1 + 1) settledRight)).debouncing
      = cfgRight.DEBOUNCE ∧
    (∀ n, n ≤ 1 + 1 → ∀ r,
      matrix_get_row (local_ticks cfgRight (fun _ => key12Down) n settledRight) r
        = matrix_get_row settledRight r) ∧
    (∀ n, n < cfgRight.DEBOUNCE → ∀ r,
      matrix_get_row (local_ticks cfgRight (fun _ => keysUp) n
        (local_ticks cfgRight (fun _ => key12Down) (1 + 1) settledRight)) r
          = matrix_get_row settledRight r) ∧
    (∀ i, i < ROWS_PER_HAND cfgRight →
      matrix_get_row (local_ticks cfgRight (fun _ => keysUp) cfgRight.DEBOUNCE
        (local_ticks cfgRight (fun _ => key12Down) (1 + 1) settledRight)) (i + offset cfgRight)
          = read_cols cfgRight (keysUp i)) :=
  debounce_restart cfgRight settledRight key12Down keysUp 1
    (by decide) (by decide) (by decide) (by decide) (by decide)

/-! ## The counter -/

/-- C4, counterexample to the claim as stated. Left half, `DEBOUNCE = 5`, one
scan after key (2,3) went down: the pending row 2 is 8, the committed row 2 is
still 0 and the counter is 4. Sampling the same readings again finds a row that
differs from the committed matrix, yet the counter is not restarted; sampling
all-released readings finds every row equal to the committed matrix, yet the
counter is restarted at 5. -/
theorem reset_compares_with_pending_not_committed :
    (read_cols cfgLeft (key23Down 2)
        ≠ (local_ticks cfgLeft (fun _ => key23Down) 1 settledLeft).matrix (2 + offset cfgLeft) ∧
      (local_ticks cfgLeft (fun _ => key23Down) 1 settledLeft).debouncing = 4 ∧
      (sample_local_rows cfgLeft key23Down
        (local_ticks cfgLeft (fun _ => key23Down) 1 settledLeft)).debouncing = 4) ∧
    ((∀ i, i < ROWS_PER_HAND cfgLeft → read_cols cfgLeft (keysUp i)
        = (local_ticks cfgLeft (fun _ => key23Down) 1 settledLeft).matrix (i + offset cfgLeft)) ∧
      (sample_local_rows cfgLeft keysUp
        (local_ticks cfgLeft (fun _ => key23Down) 1 settledLeft)).debouncing = 5) := by
  decide

/-- C4, as amended. After the sampling loop of a scan, before the decrement,
the counter holds the threshold (`DEBOUNCE` as stored in the `uint8_t`
counter) if at least one freshly sampled local row differs from the pending
row `matrix_debouncing[i+offset]` held before the scan, and is unchanged
otherwise; the value does not depend on how many rows differ. -/
theorem reset_iff_sample_differs_from_pending (cfg : Config) (hw : Hardware) (s : State) :
    (sample_local_rows cfg hw s).debouncing =
      if ∃ i, i < ROWS_PER_HAND cfg ∧
        read_cols cfg (hw i) ≠ s.matrix_debouncing (i + offset cfg)
      then cfg.DEBOUNCE % 256 else s.debouncing := by
  rw [sample_local_rows_counter]
  have hiff : unstable cfg hw s ↔ ∃ i, i < ROWS_PER_HAND cfg ∧
      read_cols cfg (hw i) ≠ s.matrix_debouncing (i + offset cfg) := by
    unfold unstable
    constructor
    · rintro ⟨i, hi, hne⟩
      exact ⟨i, hi, fun h => hne h.symm⟩
    · rintro ⟨i, hi, hne⟩
      exact ⟨i, hi, fun h => hne h.symm⟩
  by_cases h : unstable cfg hw s
  · rw [if_pos h, if_pos (hiff.mp h)]
  · rw [if_neg h, if_neg (fun hh => h (hiff.mpr hh))]

theorem matrix_init_counter (cfg : Config) (s : State) :
    (matrix_init cfg s).debouncing = s.debouncing := by
  unfold matrix_init matrix_init_quantum matrix_init_kb matrix_init_user
  exact forLoop_keeps (fun t : State => t.debouncing = s.debouncing)
    (fun i t => { t with
      matrix := arr_set t.matrix i 0
      matrix_debouncing := arr_set t.matrix_debouncing i 0 })
    (fun _ _ ht => ht) cfg.MATRIX_ROWS s rfl

theorem matrix_slave_scan_counter (cfg : Config) (hw : Hardware) (s : State) :
    (matrix_slave_scan cfg hw s).debouncing = (_matrix_scan cfg hw s).2.debouncing := by
  unfold matrix_slave_scan
  dsimp only
  by_cases hb : cfg.USE_I2C = true
  · rw [if_pos hb]
    exact forLoop_keeps (fun t : State => t.debouncing = (_matrix_scan cfg hw s).2.debouncing)
      (fun i t => { t with
        i2c_slave_buffer := arr_set t.i2c_slave_buffer i
          (t.matrix ((if cfg.isLeftHand then 0 else cfg.MATRIX_ROWS / 2) + i) % 256) })
      (fun _ _ ht => ht) (ROWS_PER_HAND cfg) (_matrix_scan cfg hw s).2 rfl
  · rw [if_neg hb]
    exact forLoop_keeps (fun t : State => t.debouncing = (_matrix_scan cfg hw s).2.debouncing)
      (fun i t => { t with
        serial_slave_buffer := arr_set t.serial_slave_buffer i
          (t.matrix ((if cfg.isLeftHand then 0 else cfg.MATRIX_ROWS / 2) + i) % 256) })
      (fun _ _ ht => ht) (ROWS_PER_HAND cfg) (_matrix_scan cfg hw s).2 rfl

/-- The range of the counter is kept by one local scan. -/
theorem matrix_scan_local_range (cfg : Config) (hw : Hardware) (s : State)
    (h : s.debouncing ≤ cfg.DEBOUNCE ∧ s.debouncing < 256) :
    (_matrix_scan cfg hw s).2.debouncing ≤ cfg.DEBOUNCE ∧
    (_matrix_scan cfg hw s).2.debouncing < 256 := by
  rw [matrix_scan_local_counter]
  unfold counter_after_sampling
  have h1 : cfg.DEBOUNCE % 256 ≤ cfg.DEBOUNCE := Nat.mod_le _ _
  have h2 : cfg.DEBOUNCE % 256 < 256 := Nat.mod_lt _ (by decide)
  by_cases hu : unstable cfg hw s
  · rw [if_pos hu]; omega
  · rw [if_neg hu]; omega

/-- The range of the counter is kept by every call of the driver. -/
theorem call_keeps_range (cfg : Config) (c : Call) (s : State)
    (h : s.debouncing ≤ cfg.DEBOUNCE ∧ s.debouncing < 256) :
    (c.apply cfg s).debouncing ≤ cfg.DEBOUNCE ∧ (c.apply cfg s).debouncing < 256 := by
  cases c with
  | init =>
    show (matrix_init cfg s).debouncing ≤ _ ∧ (matrix_init cfg s).debouncing < 256
    rw [matrix_init_counter]
    exact h
  | scan hw l =>
    show (matrix_scan cfg hw l s).2.debouncing ≤ _ ∧ (matrix_scan cfg hw l s).2.debouncing < 256
    rw [matrix_scan_state, (link_update_local cfg l _).1]
    exact matrix_scan_local_range cfg hw s h
  | slave_scan hw =>
    show (matrix_slave_scan cfg hw s).debouncing ≤ _ ∧ (matrix_slave_scan cfg hw s).debouncing < 256
    rw [matrix_slave_scan_counter]
    exact matrix_scan_local_range cfg hw s h

theorem run_keeps_range (cfg : Config) (calls : List Call) (s : State)
    (h : s.debouncing ≤ cfg.DEBOUNCE ∧ s.debouncing < 256) :
    (run cfg calls s).debouncing ≤ cfg.DEBOUNCE ∧ (run cfg calls s).debouncing < 256 := by
  induction calls generalizing s with
  | nil => exact h
  | cons c cs ih => exact ih (c.apply cfg s) (call_keeps_range cfg c s h)

/-- C5. In the state at program start and after every sequence of
`matrix_init`, `matrix_scan` and `matrix_slave_scan` calls, with arbitrary
readings and transport behaviour, the counter satisfies
`0 ≤ debouncing ≤ DEBOUNCE` and stays a valid `uint8_t` value (the decrement
is only taken from a non-zero counter, so it never wraps). -/
theorem debounce_counter_range (cfg : Config) (led : Bool) (calls : List Call) :
    0 ≤ (run cfg calls (bootState cfg led)).debouncing ∧
    (run cfg calls (bootState cfg led)).debouncing ≤ cfg.DEBOUNCE ∧
    (run cfg calls (bootState cfg led)).debouncing < 256 := by
  have h := run_keeps_range cfg calls (bootState cfg led)
    ⟨Nat.mod_le _ _, Nat.mod_lt _ (by decide)⟩
  exact ⟨Nat.zero_le _, h.1, h.2⟩

/-! ## Scans with the link: the remote part -/

/-- Rows of the other half are untouched by the local scan. -/
theorem matrix_scan_local_remote_rows (cfg : Config) (hw : Hardware) (s : State) (r : Nat)
    (hr : ¬ inBlock cfg (offset cfg) r) : (_matrix_scan cfg hw s).2.matrix r = s.matrix r := by
  rw [matrix_scan_local_matrix]
  have hn : ¬ (counter_after_sampling cfg hw s = 1 ∧ inBlock cfg (offset cfg) r) :=
    fun hh => hr hh.2
  rw [if_neg hn]

/-- One call of `matrix_scan` whose transaction fails. -/
theorem matrix_scan_fail (cfg : Config) (hw : Hardware) (l : LinkInput) (s : State)
    (h : link_fails cfg l = true) :
    (matrix_scan cfg hw l s).2.error_count = (s.error_count + 1) % 256 ∧
    (matrix_scan cfg hw l s).2.txled = true ∧
    ∀ r, inBlock cfg (slaveOffset cfg) r →
      (matrix_scan cfg hw l s).2.matrix r =
        if ERROR_DISCONNECT_COUNT < (s.error_count + 1) % 256 then 0 else s.matrix r := by
  rw [matrix_scan_state]
  obtain ⟨h1, h2, _, _, h5⟩ := link_update_fail cfg l (_matrix_scan cfg hw s).2 h
  have he : (_matrix_scan cfg hw s).2.error_count = s.error_count :=
    (matrix_scan_local_rest cfg hw s).1
  refine ⟨by rw [h1, he], h2, ?_⟩
  intro r hr
  have hloc : ¬ inBlock cfg (offset cfg) r := fun hl => blocks_disjoint cfg r hl hr
  rw [h5 r, he, matrix_scan_local_remote_rows cfg hw s r hloc]
  by_cases hgt : ERROR_DISCONNECT_COUNT < (s.error_count + 1) % 256
  · rw [if_pos ⟨hgt, hr⟩, if_pos hgt]
  · have hn : ¬ (ERROR_DISCONNECT_COUNT < (s.error_count + 1) % 256 ∧
        inBlock cfg (slaveOffset cfg) r) := fun hh => hgt hh.1
    rw [if_neg hn, if_neg hgt]

/-- One call of `matrix_scan` whose transaction succeeds. -/
theorem matrix_scan_ok (cfg : Config) (hw : Hardware) (l : LinkInput) (s : State)
    (h : link_fails cfg l = false) :
    (matrix_scan cfg hw l s).2.error_count = 0 ∧
    (matrix_scan cfg hw l s).2.txled = false ∧
    ∀ i, i < ROWS_PER_HAND cfg →
      (matrix_scan cfg hw l s).2.matrix (slaveOffset cfg + i) = l.rx i % 256 := by
  rw [matrix_scan_state]
  obtain ⟨h1, h2, _, _, h5⟩ := link_update_ok cfg l (_matrix_scan cfg hw s).2 h
  refine ⟨h1, h2, ?_⟩
  intro i hi
  rw [h5]
  exact transaction_ok_remote cfg l _ h i hi

/-- Link error count after `n` consecutive failed scans from count 0. -/
theorem error_count_after_failures (cfg : Config) (hw : Nat → Hardware)
    (link : Nat → LinkInput) (s : State) (n : Nat) (h0 : s.error_count = 0)
    (hfail : ∀ k, k < n → link_fails cfg (link k) = true) :
    (scan_ticks cfg hw link n s).error_count = n % 256 := by
  induction n with
  | zero => exact h0
  | succ k ih =>
    have ihk := ih (fun j hj => hfail j (by omega))
    show (matrix_scan cfg (hw k) (link k) (scan_ticks cfg hw link k s)).2.error_count = _
    rw [(matrix_scan_fail cfg (hw k) (link k) _ (hfail k (by omega))).1, ihk]
    omega

/-- Rows of the other half after `n` consecutive failed scans from count 0:
the cached values up to `ERROR_DISCONNECT_COUNT` failures, zero from then
on. -/
theorem remote_rows_after_failures (cfg : Config) (hw : Nat → Hardware)
    (link : Nat → LinkInput) (s : State) (n : Nat) (h0 : s.error_count = 0)
    (hfail : ∀ k, k < n → link_fails cfg (link k) = true)
    (r : Nat) (hr : inBlock cfg (slaveOffset cfg) r) :
    (scan_ticks cfg hw link n s).matrix r =
      if n ≤ ERROR_DISCONNECT_COUNT then s.matrix r else 0 := by
  induction n with
  | zero =>
    rw [if_pos (Nat.zero_le _)]
    rfl
  | succ k ih =>
    have ihk := ih (fun j hj => hfail j (by omega))
    have hec := error_count_after_failures cfg hw link s k h0 (fun j hj => hfail j (by omega))
    show (matrix_scan cfg (hw k) (link k) (scan_ticks cfg hw link k s)).2.matrix r = _
    rw [(matrix_scan_fail cfg (hw k) (link k) _ (hfail k (by omega))).2.2 r hr, hec, ihk]
    unfold ERROR_DISCONNECT_COUNT
    by_cases hk : k + 1 ≤ 5
    · have h1 : ¬ 5 < (k % 256 + 1) % 256 := by omega
      have h2 : k ≤ 5 := by omega
      rw [if_neg h1, if_pos h2, if_pos hk]
    · rw [if_neg hk]
      by_cases h1 : 5 < (k % 256 + 1) % 256
      · rw [if_pos h1]
      · have h2 : ¬ k ≤ 5 := by omega
        rw [if_neg h1, if_neg h2]

/-- C6, counterexample to the claim as stated. Left half, link error count 0,
rows of the other half cached as 1: after five consecutive scans whose
transaction fails the count is 5, not above the threshold, and row 4 still
reads 1. -/
theorem five_failures_keep_cached_rows :
    cachedLeft.error_count = 0 ∧
    link_fails cfgLeft linkDown = true ∧
    (scan_ticks cfgLeft (fun _ => keysUp) (fun _ => linkDown) 5 cachedLeft).error_count = 5 ∧
    isRemoteRow cfgLeft 4 ∧
    matrix_get_row (scan_ticks cfgLeft (fun _ => keysUp) (fun _ => linkDown) 5 cachedLeft) 4
      = 1 := by
  decide

/-- C6, as amended. From link error count 0 and arbitrary cached rows, with six
consecutive `matrix_scan` calls whose transaction fails
(`ERROR_DISCONNECT_COUNT + 1`, the count must exceed the threshold): after
each of the first five the rows of the other half still hold their cached
values, and after the sixth every one of them is zero: rows
`slaveOffset + i`, which for an even row count are rows
`[ROWS_PER_HAND, MATRIX_ROWS)` on the left half and `[0, ROWS_PER_HAND)` on
the right half. -/
theorem disconnect_zeroing (cfg : Config) (hw : Nat → Hardware) (link : Nat → LinkInput)
    (s : State) (h0 : s.error_count = 0)
    (hfail : ∀ k, k < ERROR_DISCONNECT_COUNT + 1 → link_fails cfg (link k) = true) :
    (∀ n, n ≤ ERROR_DISCONNECT_COUNT → ∀ i, i < ROWS_PER_HAND cfg →
      matrix_get_row (scan_ticks cfg hw link n s) (slaveOffset cfg + i)
        = matrix_get_row s (slaveOffset cfg + i)) ∧
    (∀ i, i < ROWS_PER_HAND cfg →
      matrix_get_row (scan_ticks cfg hw link (ERROR_DISCONNECT_COUNT + 1) s)
        (slaveOffset cfg + i) = 0) ∧
    (cfg.MATRIX_ROWS % 2 = 0 → ∀ r, isRemoteRow cfg r →
      matrix_get_row (scan_ticks cfg hw link (ERROR_DISCONNECT_COUNT + 1) s) r = 0) := by
  have hsix : ∀ r, inBlock cfg (slaveOffset cfg) r →
      (scan_ticks cfg hw link (ERROR_DISCONNECT_COUNT + 1) s).matrix r = 0 := by
    intro r hr
    rw [remote_rows_after_failures cfg hw link s _ h0 hfail r hr]
    have : ¬ ERROR_DISCONNECT_COUNT + 1 ≤ ERROR_DISCONNECT_COUNT := by omega
    rw [if_neg this]
  refine ⟨?_, ?_, ?_⟩
  · intro n hn i hi
    have hr : inBlock cfg (slaveOffset cfg) (slaveOffset cfg + i) := by
      unfold inBlock; omega
    show (scan_ticks cfg hw link n s).matrix _ = s.matrix _
    rw [remote_rows_after_failures cfg hw link s n h0
      (fun k hk => hfail k (by omega)) _ hr, if_pos hn]
  · intro i hi
    exact hsix _ (by unfold inBlock; omega)
  · intro hEven r hr
    exact hsix r ((isRemoteRow_iff cfg hEven r).mp hr)

/-- C6, instance of the amended statement: the left half with cached rows and
the link down. -/
theorem disconnect_zeroing_witness :
    (∀ n, n ≤ ERROR_DISCONNECT_COUNT → ∀ i, i < ROWS_PER_HAND cfgLeft →
      matrix_get_row (scan_ticks cfgLeft (fun _ => keysUp) (fun _ => linkDown) n cachedLeft)
        (slaveOffset cfgLeft + i) = matrix_get_row cachedLeft (slaveOffset cfgLeft + i)) ∧
    (∀ i, i < ROWS_PER_HAND cfgLeft →
      matrix_get_row (scan_ticks cfgLeft (fun _ => keysUp) (fun _ => linkDown)
        (ERROR_DISCONNECT_COUNT + 1) cachedLeft) (slaveOffset cfgLeft + i) = 0) ∧
    (cfgLeft.MATRIX_ROWS % 2 = 0 → ∀ r, isRemoteRow cfgLeft r →
      matrix_get_row (scan_ticks cfgLeft (fun _ => keysUp) (fun _ => linkDown)
        (ERROR_DISCONNECT_COUNT + 1) cachedLeft) r = 0) :=
  disconnect_zeroing cfgLeft (fun _ => keysUp) (fun _ => linkDown) cachedLeft
    (by decide) (fun _ _ => (by decide : link_fails cfgLeft linkDown = true))

/-- C7. From every state, whatever the link error count and the rows of the
other half, one `matrix_scan` call whose transaction succeeds leaves the link
error count at 0, the fault LED off, and every row of the other half equal to
the byte received for it on that call: rows `slaveOffset + i`, which for an
even row count are exactly the remote rows. -/
theorem disconnect_recovery (cfg : Config) (hw : Hardware) (l : LinkInput) (s : State)
    (hok : link_fails cfg l = false) :
    (matrix_scan cfg hw l s).2.error_count = 0 ∧
    (matrix_scan cfg hw l s).2.txled = false ∧
    (∀ i, i < ROWS_PER_HAND cfg →
      matrix_get_row (matrix_scan cfg hw l s).2 (slaveOffset cfg + i) = l.rx i % 256) ∧
    (cfg.MATRIX_ROWS % 2 = 0 → ∀ r, isRemoteRow cfg r →
      matrix_get_row (matrix_scan cfg hw l s).2 r = l.rx (r - slaveOffset cfg) % 256) := by
  obtain ⟨h1, h2, h3⟩ := matrix_scan_ok cfg hw l s hok
  refine ⟨h1, h2, h3, ?_⟩
  intro hEven r hr
  have hin := (isRemoteRow_iff cfg hEven r).mp hr
  unfold inBlock at hin
  have h := h3 (r - slaveOffset cfg) (by omega)
  have hr2 : slaveOffset cfg + (r - slaveOffset cfg) = r := by omega
  rw [hr2] at h
  exact h

/-- C7, instance: the right half (I2C build) at error count 7 with the rows of
the other half zeroed, then one successful transaction delivering `i + 1` for
row `i`. -/
theorem disconnect_recovery_witness :
    (disconnectedRight.error_count = 7 ∧ link_fails cfgRight (linkUp (fun i => i + 1)) = false) ∧
    ((matrix_scan cfgRight keysUp (linkUp (fun i => i + 1)) disconnectedRight).2.error_count = 0 ∧
    (matrix_scan cfgRight keysUp (linkUp (fun i => i + 1)) disconnectedRight).2.txled = false ∧
    (∀ i, i < ROWS_PER_HAND cfgRight →
      matrix_get_row (matrix_scan cfgRight keysUp (linkUp (fun i => i + 1)) disconnectedRight).2
        (slaveOffset cfgRight + i) = (linkUp (fun i => i + 1)).rx i % 256) ∧
    (cfgRight.MATRIX_ROWS % 2 = 0 → ∀ r, isRemoteRow cfgRight r →
      matrix_get_row (matrix_scan cfgRight keysUp (linkUp (fun i => i + 1)) disconnectedRight).2 r
        = (linkUp (fun i => i + 1)).rx (r - slaveOffset cfgRight) % 256)) :=
  ⟨⟨by decide, by decide⟩,
    disconnect_recovery cfgRight keysUp (linkUp (fun i => i + 1)) disconnectedRight (by decide)⟩

/-- C8. Whenever the transport transaction reports failure (a non-zero
result), be it `serial_transaction`, `i2c_transaction` or the one selected by
the build, every row of the matrix is what it was before the attempt. -/
theorem failed_sync_leaves_matrix (cfg : Config) (l : LinkInput) (s : State) :
    ((serial_transaction cfg l s).1 ≠ 0 →
      ∀ r, matrix_get_row (serial_transaction cfg l s).2 r = matrix_get_row s r) ∧
    ((i2c_transaction cfg l s).1 ≠ 0 →
      ∀ r, matrix_get_row (i2c_transaction cfg l s).2 r = matrix_get_row s r) ∧
    ((transaction cfg l s).1 ≠ 0 →
      ∀ r, matrix_get_row (transaction cfg l s).2 r = matrix_get_row s r) := by
  refine ⟨?_, ?_, ?_⟩
  · intro h r
    rw [serial_transaction_fail cfg l s h]
    rfl
  · intro h r
    rw [i2c_transaction_fail cfg l s h]
  · intro h r
    show (transaction cfg l s).2.matrix r = s.matrix r
    rw [(transaction_fail cfg l s h).1]

/-- C8, instance: both transactions fail on the left half holding cached
rows. -/
theorem failed_sync_leaves_matrix_witness :
    ((serial_transaction cfgLeft linkDown cachedLeft).1 ≠ 0 ∧
      (i2c_transaction cfgLeft linkDown cachedLeft).1 ≠ 0) ∧
    (((serial_transaction cfgLeft linkDown cachedLeft).1 ≠ 0 →
      ∀ r, matrix_get_row (serial_transaction cfgLeft linkDown cachedLeft).2 r
        = matrix_get_row cachedLeft r) ∧
    ((i2c_transaction cfgLeft linkDown cachedLeft).1 ≠ 0 →
      ∀ r, matrix_get_row (i2c_transaction cfgLeft linkDown cachedLeft).2 r
        = matrix_get_row cachedLeft r) ∧
    ((transaction cfgLeft linkDown cachedLeft).1 ≠ 0 →
      ∀ r, matrix_get_row (transaction cfgLeft linkDown cachedLeft).2 r
        = matrix_get_row cachedLeft r)) :=
  ⟨⟨by decide, by decide⟩, failed_sync_leaves_matrix cfgLeft linkDown cachedLeft⟩

/-! ## Which rows each step writes -/

/-- The link update leaves every row outside the block of the other half
alone (on the I2C build when the half has at least one row). -/
theorem link_update_frame (cfg : Config) (l : LinkInput) (s : State)
    (hrows : cfg.USE_I2C = false ∨ 0 < ROWS_PER_HAND cfg)
    (r : Nat) (hr : ¬ inBlock cfg (slaveOffset cfg) r) :
    (link_update cfg l s).matrix r = s.matrix r := by
  by_cases h : link_fails cfg l = true
  · rw [(link_update_fail cfg l s h).2.2.2.2 r]
    have hn : ¬ (ERROR_DISCONNECT_COUNT < (s.error_count + 1) % 256 ∧
        inBlock cfg (slaveOffset cfg) r) := fun hh => hr hh.2
    rw [if_neg hn]
  · have h2 : link_fails cfg l = false := by simpa using h
    rw [(link_update_ok cfg l s h2).2.2.2.2]
    exact transaction_ok_frame cfg l s h2 hrows r hr

/-- C9. With an even row count (and, on the I2C build, at least one row):
`offset` is 0 and `slaveOffset` is `ROWS_PER_HAND` on the left half, and the
other way round on the right half; local sample `i` lands in pending row
`i + offset`, a local row, and on a commit in committed row `i + offset`;
`_matrix_scan` leaves every non-local row of both matrices unchanged; the
transaction and disconnect path of `matrix_scan` leaves the pending matrix and
every non-remote row of the matrix unchanged, and remote row `i` lands in row
`slaveOffset + i`, a remote row; the local and remote ranges are disjoint and
together are exactly the rows below `MATRIX_ROWS`. -/
theorem half_offset_frame (cfg : Config) (hw : Hardware) (l : LinkInput) (s : State)
    (hEven : cfg.MATRIX_ROWS % 2 = 0) (hRows : cfg.USE_I2C = false ∨ 0 < cfg.MATRIX_ROWS) :
    (cfg.isLeftHand = true → offset cfg = 0 ∧ slaveOffset cfg = ROWS_PER_HAND cfg) ∧
    (cfg.isLeftHand = false → offset cfg = ROWS_PER_HAND cfg ∧ slaveOffset cfg = 0) ∧
    (∀ i, i < ROWS_PER_HAND cfg →
      isLocalRow cfg (i + offset cfg) ∧
      (sample_local_rows cfg hw s).matrix_debouncing (i + offset cfg) = read_cols cfg (hw i) ∧
      (counter_after_sampling cfg hw s = 1 →
        (_matrix_scan cfg hw s).2.matrix (i + offset cfg) = read_cols cfg (hw i))) ∧
    (∀ r, ¬ isLocalRow cfg r →
      (_matrix_scan cfg hw s).2.matrix_debouncing r = s.matrix_debouncing r ∧
      (_matrix_scan cfg hw s).2.matrix r = s.matrix r) ∧
    (link_update cfg l s).matrix_debouncing = s.matrix_debouncing ∧
    (∀ r, ¬ isRemoteRow cfg r → (link_update cfg l s).matrix r = s.matrix r) ∧
    (∀ i, i < ROWS_PER_HAND cfg →
      isRemoteRow cfg (slaveOffset cfg + i) ∧
      (link_fails cfg l = false →
        (link_update cfg l s).matrix (slaveOffset cfg + i) = l.rx i % 256)) ∧
    (∀ r, ¬ (isLocalRow cfg r ∧ isRemoteRow cfg r)) ∧
    (∀ r, r < cfg.MATRIX_ROWS ↔ (isLocalRow cfg r ∨ isRemoteRow cfg r)) := by
  have hrows : cfg.USE_I2C = false ∨ 0 < ROWS_PER_HAND cfg := by
    rcases hRows with h | h
    · exact Or.inl h
    · right; unfold ROWS_PER_HAND; omega
  refine ⟨?_, ?_, ?_, ?_, (link_update_local cfg l s).2, ?_, ?_, ?_, ?_⟩
  · intro hl
    unfold offset slaveOffset
    rw [if_pos hl, if_pos hl]
    exact ⟨rfl, rfl⟩
  · intro hl
    have hl2 : ¬ cfg.isLeftHand = true := by simp [hl]
    unfold offset slaveOffset
    rw [if_neg hl2, if_neg hl2]
    exact ⟨rfl, rfl⟩
  · intro i hi
    have hin : inBlock cfg (offset cfg) (i + offset cfg) := by
      unfold inBlock; omega
    refine ⟨(isLocalRow_iff cfg hEven _).mpr hin, ?_, ?_⟩
    · rw [sample_local_rows_pending, if_pos hin, Nat.add_sub_cancel]
    · intro hc
      rw [matrix_scan_local_matrix, if_pos ⟨hc, hin⟩, Nat.add_sub_cancel]
  · intro r hr
    have hin : ¬ inBlock cfg (offset cfg) r := fun h => hr ((isLocalRow_iff cfg hEven r).mpr h)
    constructor
    · rw [matrix_scan_local_pending, if_neg hin]
    · exact matrix_scan_local_remote_rows cfg hw s r hin
  · intro r hr
    have hin : ¬ inBlock cfg (slaveOffset cfg) r :=
      fun h => hr ((isRemoteRow_iff cfg hEven r).mpr h)
    exact link_update_frame cfg l s hrows r hin
  · intro i hi
    have hin : inBlock cfg (slaveOffset cfg) (slaveOffset cfg + i) := by
      unfold inBlock; omega
    refine ⟨(isRemoteRow_iff cfg hEven _).mpr hin, ?_⟩
    intro hok
    rw [(link_update_ok cfg l s hok).2.2.2.2]
    exact transaction_ok_remote cfg l s hok i hi
  · rintro r ⟨h1, h2⟩
    exact blocks_disjoint cfg r ((isLocalRow_iff cfg hEven r).mp h1)
      ((isRemoteRow_iff cfg hEven r).mp h2)
  · intro r
    unfold isLocalRow isRemoteRow ROWS_PER_HAND
    by_cases hl : cfg.isLeftHand = true
    · rw [if_pos hl, if_pos hl]; omega
    · rw [if_neg hl, if_neg hl]; omega

/-- C9, instance: the right half (I2C build, 8 rows) with key (1,2) down and a
successful transaction; the part on the rows left unchanged by
`_matrix_scan`. -/
theorem half_offset_frame_witness :
    (cfgRight.MATRIX_ROWS % 2 = 0 ∧ (cfgRight.USE_I2C = false ∨ 0 < cfgRight.MATRIX_ROWS)) ∧
    (∀ r, ¬ isLocalRow cfgRight r →
      (_matrix_scan cfgRight key12Down disconnectedRight).2.matrix_debouncing r
        = disconnectedRight.matrix_debouncing r ∧
      (_matrix_scan cfgRight key12Down disconnectedRight).2.matrix r
        = disconnectedRight.matrix r) :=
  ⟨⟨by decide, by decide⟩,
    (half_offset_frame cfgRight key12Down (linkUp (fun i => i + 1)) disconnectedRight
      (by decide) (by decide)).2.2.2.1⟩

/-! ## The link error count -/

/-- C10, counterexample to the claim as stated. From the state at program
start, 255 consecutive failed scans leave the link error count at 255, and
the 256th failed scan leaves it at 0: smaller than before, and zero without
any successful sync. -/
theorem error_count_wraps_after_256_failures :
    link_fails cfgLeft linkDown = true ∧
    (scan_ticks cfgLeft (fun _ => keysUp) (fun _ => linkDown) 255
      (bootState cfgLeft false)).error_count = 255 ∧
    (matrix_scan cfgLeft keysUp linkDown
      (scan_ticks cfgLeft (fun _ => keysUp) (fun _ => linkDown) 255
        (bootState cfgLeft false))).2.error_count = 0 := by
  have hf : link_fails cfgLeft linkDown = true := by decide
  have h255 := error_count_after_failures cfgLeft (fun _ => keysUp) (fun _ => linkDown)
    (bootState cfgLeft false) 255 rfl (fun _ _ => hf)
  refine ⟨hf, h255, ?_⟩
  rw [(matrix_scan_fail cfgLeft keysUp linkDown _ hf).1, h255]

/-- C10, as amended. The link error count is an 8-bit counter incremented
modulo 256 on every failed scan, with no saturation: after `n` consecutive
failed `matrix_scan` calls from count 0 it is `n mod 256`, hence non-zero and
not smaller than before for `1 ≤ n ≤ 255` and zero again at `n = 256`; in
every state a failed scan leaves `(count + 1) mod 256` and a successful scan
leaves 0. -/
theorem error_count_accumulates_mod_256 (cfg : Config) (hw : Nat → Hardware)
    (link : Nat → LinkInput) (s : State) (n : Nat) (h0 : s.error_count = 0)
    (hfail : ∀ k, k < n → link_fails cfg (link k) = true) :
    (scan_ticks cfg hw link n s).error_count = n % 256 ∧
    (1 ≤ n → n ≤ 255 →
      (scan_ticks cfg hw link n s).error_count ≠ 0 ∧
      (scan_ticks cfg hw link (n - 1) s).error_count
        ≤ (scan_ticks cfg hw link n s).error_count) ∧
    (∀ (t : State) (h : Hardware) (l : LinkInput), link_fails cfg l = true →
      (matrix_scan cfg h l t).2.error_count = (t.error_count + 1) % 256) ∧
    (∀ (t : State) (h : Hardware) (l : LinkInput), link_fails cfg l = false →
      (matrix_scan cfg h l t).2.error_count = 0) := by
  have hn := error_count_after_failures cfg hw link s n h0 hfail
  refine ⟨hn, ?_, ?_, ?_⟩
  · intro h1 h255
    have hp := error_count_after_failures cfg hw link s (n - 1) h0
      (fun k hk => hfail k (by omega))
    rw [hn, hp]
    omega
  · intro t h l hl
    exact (matrix_scan_fail cfg h l t hl).1
  · intro t h l hl
    exact (matrix_scan_ok cfg h l t hl).1

/-- C10, instance of the amended statement: seven failed scans of the right
half from the state at program start. -/
theorem error_count_accumulates_mod_256_witness :
    (scan_ticks cfgRight (fun _ => keysUp) (fun _ => linkDown) 7
      (bootState cfgRight false)).error_count = 7 % 256 :=
  (error_count_accumulates_mod_256 cfgRight (fun _ => keysUp) (fun _ => linkDown)
    (bootState cfgRight false) 7 rfl
    (fun _ _ => (by decide : link_fails cfgRight linkDown = true))).1

/-! ## The fault indicator and the return value -/

/-- C11, counterexample to the claim as stated. On the left half at program
start (link error count 0), one scan whose transaction fails leaves the count
at 1, below the threshold 5, and the fault LED on. -/
theorem led_on_after_single_failure :
    (bootState cfgLeft false).error_count = 0 ∧
    link_fails cfgLeft linkDown = true ∧
    (matrix_scan cfgLeft keysUp linkDown (bootState cfgLeft false)).2.error_count = 1 ∧
    ¬ ERROR_DISCONNECT_COUNT ≤
      (matrix_scan cfgLeft keysUp linkDown (bootState cfgLeft false)).2.error_count ∧
    (matrix_scan cfgLeft keysUp linkDown (bootState cfgLeft false)).2.txled = true := by
  decide

/-- C11, as amended. After every `matrix_scan` call the fault LED is on exactly
when the transaction of that call failed. Hence it is on whenever the link
error count is above the threshold after the call, and off (with the count at
0) after every call whose transaction succeeded; a single failure raises
it. -/
theorem led_tracks_last_transaction (cfg : Config) (hw : Hardware) (l : LinkInput)
    (s : State) :
    (matrix_scan cfg hw l s).2.txled = link_fails cfg l ∧
    (ERROR_DISCONNECT_COUNT < (matrix_scan cfg hw l s).2.error_count →
      (matrix_scan cfg hw l s).2.txled = true) ∧
    (link_fails cfg l = false →
      (matrix_scan cfg hw l s).2.txled = false ∧
      (matrix_scan cfg hw l s).2.error_count = 0) := by
  by_cases h : link_fails cfg l = true
  · obtain ⟨_, h2, _⟩ := matrix_scan_fail cfg hw l s h
    refine ⟨by rw [h2, h], fun _ => h2, ?_⟩
    intro hok
    rw [h] at hok
    exact absurd hok (by decide)
  · have hok : link_fails cfg l = false := by simpa using h
    obtain ⟨h1, h2, _⟩ := matrix_scan_ok cfg hw l s hok
    refine ⟨by rw [h2, hok], ?_, fun _ => ⟨h2, h1⟩⟩
    intro hgt
    rw [h1] at hgt
    exact absurd hgt (by decide)

/-- C11, instance of the amended statement: the right half, disconnected for
seven scans, scanned once more with the link still down. -/
theorem led_tracks_last_transaction_witness :
    (matrix_scan cfgRight keysUp linkDown disconnectedRight).2.txled
      = link_fails cfgRight linkDown ∧
    (ERROR_DISCONNECT_COUNT
        < (matrix_scan cfgRight keysUp linkDown disconnectedRight).2.error_count →
      (matrix_scan cfgRight keysUp linkDown disconnectedRight).2.txled = true) ∧
    (link_fails cfgRight linkDown = false →
      (matrix_scan cfgRight keysUp linkDown disconnectedRight).2.txled = false ∧
      (matrix_scan cfgRight keysUp linkDown disconnectedRight).2.error_count = 0) :=
  led_tracks_last_transaction cfgRight keysUp linkDown disconnectedRight

/-- C12, counterexample to the claim as stated. On the settled left half the
scan that first sees key (2,3) down restarts the counter at 5 and decrements
it to 4: the commit loop does not run, every row of the matrix is as before,
`matrix_is_modified` is false, and yet `matrix_scan` returns 1 (true). -/
theorem scan_returns_true_without_commit :
    (sample_local_rows cfgLeft key23Down settledLeft).debouncing = 5 ∧
    (matrix_scan cfgLeft key23Down linkDown settledLeft).2.debouncing = 4 ∧
    (∀ r, r < cfgLeft.MATRIX_ROWS →
      matrix_get_row (matrix_scan cfgLeft key23Down linkDown settledLeft).2 r
        = matrix_get_row settledLeft r) ∧
    matrix_is_modified (matrix_scan cfgLeft key23Down linkDown settledLeft).2 = false ∧
    (matrix_scan cfgLeft key23Down linkDown settledLeft).1 = 1 := by
  decide

/-- C12, as amended. `matrix_scan` (like `_matrix_scan`, whose value it
passes on) returns 1 on every call, whether or not the debounce commit
happened during the call. -/
theorem scan_always_returns_one (cfg : Config) (hw : Hardware) (l : LinkInput) (s : State) :
    (matrix_scan cfg hw l s).1 = 1 ∧ (_matrix_scan cfg hw s).1 = 1 :=
  ⟨rfl, rfl⟩

/-! ## Independence of the local scan from the link -/

/-- A row lies in the block of this half exactly when it is `i + offset` for
some `i < ROWS_PER_HAND`. -/
theorem inBlock_local (cfg : Config) (i : Nat) (hi : i < ROWS_PER_HAND cfg) :
    inBlock cfg (offset cfg) (i + offset cfg) := by
  unfold inBlock; omega

/-- Two states that agree on the counter and on the pending and committed
rows of this half still do so after a local scan on the same readings. -/
theorem matrix_scan_local_agree (cfg : Config) (hw : Hardware) (a b : State)
    (hd : a.debouncing = b.debouncing)
    (hp : ∀ r, inBlock cfg (offset cfg) r → a.matrix_debouncing r = b.matrix_debouncing r)
    (hm : ∀ r, inBlock cfg (offset cfg) r → a.matrix r = b.matrix r) :
    (_matrix_scan cfg hw a).2.debouncing = (_matrix_scan cfg hw b).2.debouncing ∧
    (∀ r, inBlock cfg (offset cfg) r →
      (_matrix_scan cfg hw a).2.matrix_debouncing r
        = (_matrix_scan cfg hw b).2.matrix_debouncing r) ∧
    ∀ r, inBlock cfg (offset cfg) r →
      (_matrix_scan cfg hw a).2.matrix r = (_matrix_scan cfg hw b).2.matrix r := by
  have hu : unstable cfg hw a ↔ unstable cfg hw b := by
    unfold unstable
    constructor
    · rintro ⟨i, hi, hne⟩
      exact ⟨i, hi, by rw [← hp _ (inBlock_local cfg i hi)]; exact hne⟩
    · rintro ⟨i, hi, hne⟩
      exact ⟨i, hi, by rw [hp _ (inBlock_local cfg i hi)]; exact hne⟩
  have hc : counter_after_sampling cfg hw a = counter_after_sampling cfg hw b := by
    unfold counter_after_sampling
    by_cases h : unstable cfg hw a
    · rw [if_pos h, if_pos (hu.mp h)]
    · rw [if_neg h, if_neg (fun hb => h (hu.mpr hb)), hd]
  refine ⟨?_, ?_, ?_⟩
  · rw [matrix_scan_local_counter, matrix_scan_local_counter, hc]
  · intro r hr
    rw [matrix_scan_local_pending, matrix_scan_local_pending, if_pos hr, if_pos hr]
  · intro r hr
    rw [matrix_scan_local_matrix, matrix_scan_local_matrix, hc, hm r hr]

/-- C13. Two `matrix_scan` calls from states that agree on the counter and on
the pending and committed rows of this half, on the same readings, end in
states that agree on the counter, on the pending and committed rows of this
half and on `matrix_is_modified`, whatever the two transport behaviours, link
error counts, LED levels and rows of the other half are. -/
theorem local_scan_independent_of_link (cfg : Config) (hw : Hardware)
    (la lb : LinkInput) (a b : State)
    (hd : a.debouncing = b.debouncing)
    (hp : ∀ i, i < ROWS_PER_HAND cfg →
      a.matrix_debouncing (i + offset cfg) = b.matrix_debouncing (i + offset cfg))
    (hm : ∀ i, i < ROWS_PER_HAND cfg →
      a.matrix (i + offset cfg) = b.matrix (i + offset cfg)) :
    (matrix_scan cfg hw la a).2.debouncing = (matrix_scan cfg hw lb b).2.debouncing ∧
    (∀ i, i < ROWS_PER_HAND cfg →
      (matrix_scan cfg hw la a).2.matrix_debouncing (i + offset cfg)
        = (matrix_scan cfg hw lb b).2.matrix_debouncing (i + offset cfg)) ∧
    (∀ i, i < ROWS_PER_HAND cfg →
      matrix_get_row (matrix_scan cfg hw la a).2 (i + offset cfg)
        = matrix_get_row (matrix_scan cfg hw lb b).2 (i + offset cfg)) ∧
    matrix_is_modified (matrix_scan cfg hw la a).2
      = matrix_is_modified (matrix_scan cfg hw lb b).2 := by
  have block : ∀ r, inBlock cfg (offset cfg) r → ∃ i, i < ROWS_PER_HAND cfg ∧
      r = i + offset cfg := by
    intro r hr
    unfold inBlock at hr
    exact ⟨r - offset cfg, by omega, by omega⟩
  have hp2 : ∀ r, inBlock cfg (offset cfg) r →
      a.matrix_debouncing r = b.matrix_debouncing r := by
    intro r hr
    obtain ⟨i, hi, rfl⟩ := block r hr
    exact hp i hi
  have hm2 : ∀ r, inBlock cfg (offset cfg) r → a.matrix r = b.matrix r := by
    intro r hr
    obtain ⟨i, hi, rfl⟩ := block r hr
    exact hm i hi
  obtain ⟨c1, c2, c3⟩ := matrix_scan_local_agree cfg hw a b hd hp2 hm2
  obtain ⟨a1, a2⟩ := link_update_local cfg la (_matrix_scan cfg hw a).2
  obtain ⟨b1, b2⟩ := link_update_local cfg lb (_matrix_scan cfg hw b).2
  have hdeb : (matrix_scan cfg hw la a).2.debouncing
      = (matrix_scan cfg hw lb b).2.debouncing := by
    rw [matrix_scan_state, matrix_scan_state, a1, b1]
    exact c1
  refine ⟨hdeb, ?_, ?_, ?_⟩
  · intro i hi
    rw [matrix_scan_state, matrix_scan_state, a2, b2]
    exact c2 _ (inBlock_local cfg i hi)
  · intro i hi
    show (matrix_scan cfg hw la a).2.matrix _ = (matrix_scan cfg hw lb b).2.matrix _
    rw [matrix_scan_state, matrix_scan_state,
      link_update_local_rows cfg la _ _ (inBlock_local cfg i hi),
      link_update_local_rows cfg lb _ _ (inBlock_local cfg i hi)]
    exact c3 _ (inBlock_local cfg i hi)
  · unfold matrix_is_modified
    rw [hdeb]

/-- C13, instance: the left half settled with the link down for five scans
(count 5, LED on) against the left half settled with the link up and rows
cached (count 0, LED off); one run then sees the link up, the other down. -/
theorem local_scan_independent_of_link_witness :
    ((scan_ticks cfgLeft (fun _ => keysUp) (fun _ => linkDown) 5
        (bootState cfgLeft false)).error_count = 5 ∧
      (scan_ticks cfgLeft (fun _ => keysUp) (fun _ => linkUp (fun _ => 1)) 5
        (bootState cfgLeft false)).error_count = 0) ∧
    matrix_is_modified
      (matrix_scan cfgLeft key23Down (linkUp (fun _ => 3))
        (scan_ticks cfgLeft (fun _ => keysUp) (fun _ => linkDown) 5
          (bootState cfgLeft false))).2
      = matrix_is_modified
        (matrix_scan cfgLeft key23Down linkDown
          (scan_ticks cfgLeft (fun _ => keysUp) (fun _ => linkUp (fun _ => 1)) 5
            (bootState cfgLeft false))).2 :=
  ⟨⟨by decide, by decide⟩,
    (local_scan_independent_of_link cfgLeft key23Down (linkUp (fun _ => 3)) linkDown
      (scan_ticks cfgLeft (fun _ => keysUp) (fun _ => linkDown) 5 (bootState cfgLeft false))
      (scan_ticks cfgLeft (fun _ => keysUp) (fun _ => linkUp (fun _ => 1)) 5
        (bootState cfgLeft false))
      (by decide) (by decide) (by decide)).2.2.2⟩

/-! ## Settled scans -/

/-- A scan from a settled state (counter 0) whose readings equal the pending
rows changes neither the counter nor the two matrices. -/
theorem settled_scan (cfg : Config) (hw : Hardware) (s : State)
    (h0 : s.debouncing = 0) (hst : ¬ unstable cfg hw s) :
    (_matrix_scan cfg hw s).2.debouncing = 0 ∧
    (_matrix_scan cfg hw s).2.matrix_debouncing = s.matrix_debouncing ∧
    (_matrix_scan cfg hw s).2.matrix = s.matrix := by
  have hc : counter_after_sampling cfg hw s = 0 := by
    rw [counter_after_sampling_stable cfg hw s hst, h0]
  refine ⟨?_, ?_, ?_⟩
  · rw [matrix_scan_local_counter, hc]
  · funext r
    rw [matrix_scan_local_pending]
    by_cases hr : inBlock cfg (offset cfg) r
    · rw [if_pos hr]
      unfold inBlock at hr
      by_contra hne
      apply hst
      refine ⟨r - offset cfg, by omega, ?_⟩
      have hr2 : r - offset cfg + offset cfg = r := by omega
      rw [hr2]
      exact fun h => hne h.symm
    · rw [if_neg hr]
  · funext r
    rw [matrix_scan_local_matrix]
    have hn : ¬ (counter_after_sampling cfg hw s = 1 ∧ inBlock cfg (offset cfg) r) := by
      rw [hc]
      rintro ⟨h1, _⟩
      exact absurd h1 (by decide)
    rw [if_neg hn]

/-- Any number of local scans from a settled state whose readings all equal
the pending rows change neither the counter nor the two matrices. -/
theorem settled_run (cfg : Config) (hw : Nat → Hardware) (s : State) (n : Nat)
    (h0 : s.debouncing = 0) (hst : ∀ k, k < n → ¬ unstable cfg (hw k) s) :
    (local_ticks cfg hw n s).debouncing = 0 ∧
    (local_ticks cfg hw n s).matrix_debouncing = s.matrix_debouncing ∧
    (local_ticks cfg hw n s).matrix = s.matrix := by
  induction n with
  | zero => exact ⟨h0, rfl, rfl⟩
  | succ k ih =>
    obtain ⟨i1, i2, i3⟩ := ih (fun j hj => hst j (by omega))
    have hk : ¬ unstable cfg (hw k) (local_ticks cfg hw k s) := by
      unfold unstable
      rw [i2]
      exact hst k (by omega)
    obtain ⟨g1, g2, g3⟩ := settled_scan cfg (hw k) _ i1 hk
    exact ⟨g1, g2.trans i2, g3.trans i3⟩

/-- C15. From a settled state (counter 0), any number `n` of scans whose
readings equal the pending local rows, by `_matrix_scan` or by `matrix_scan`
under any link behaviour, leave the counter at 0, the pending rows unchanged
and the committed local rows unchanged (all committed rows for
`_matrix_scan`); `matrix_is_modified` keeps the value it had, and the return
value of `matrix_scan` is the same on consecutive scans. -/
theorem idempotence_of_unchanged_input (cfg : Config) (hw : Nat → Hardware)
    (link : Nat → LinkInput) (s : State) (n : Nat)
    (h0 : s.debouncing = 0)
    (hsame : ∀ k i, i < ROWS_PER_HAND cfg →
      read_cols cfg (hw k i) = s.matrix_debouncing (i + offset cfg)) :
    ((local_ticks cfg hw n s).debouncing = 0 ∧
      (∀ r, (local_ticks cfg hw n s).matrix_debouncing r = s.matrix_debouncing r) ∧
      (∀ r, matrix_get_row (local_ticks cfg hw n s) r = matrix_get_row s r) ∧
      matrix_is_modified (local_ticks cfg hw n s) = matrix_is_modified s) ∧
    ((scan_ticks cfg hw link n s).debouncing = 0 ∧
      (∀ r, (scan_ticks cfg hw link n s).matrix_debouncing r = s.matrix_debouncing r) ∧
      (∀ i, i < ROWS_PER_HAND cfg →
        matrix_get_row (scan_ticks cfg hw link n s) (i + offset cfg)
          = matrix_get_row s (i + offset cfg)) ∧
      matrix_is_modified (scan_ticks cfg hw link n s) = matrix_is_modified s ∧
      (matrix_scan cfg (hw (n + 1)) (link (n + 1)) (scan_ticks cfg hw link (n + 1) s)).1
        = (matrix_scan cfg (hw n) (link n) (scan_ticks cfg hw link n s)).1) := by
  have hst : ∀ k, k < n → ¬ unstable cfg (hw k) s := by
    rintro k _ ⟨i, hi, hne⟩
    exact hne (hsame k i hi).symm
  obtain ⟨l1, l2, l3⟩ := settled_run cfg hw s n h0 hst
  obtain ⟨a1, a2, a3⟩ := scan_ticks_local cfg hw link n s
  refine ⟨⟨l1, ?_, ?_, ?_⟩, ⟨?_, ?_, ?_, ?_, rfl⟩⟩
  · intro r; rw [l2]
  · intro r
    show (local_ticks cfg hw n s).matrix r = s.matrix r
    rw [l3]
  · unfold matrix_is_modified
    rw [l1, h0]
  · rw [a1, l1]
  · intro r; rw [a2, l2]
  · intro i hi
    show (scan_ticks cfg hw link n s).matrix _ = s.matrix _
    rw [a3 _ (inBlock_local cfg i hi), l3]
  · unfold matrix_is_modified
    rw [a1, l1, h0]

/-- C15, instance: the settled left half with key (2,3) held down (committed
after five scans), then seven more scans on the same readings, link down. -/
theorem idempotence_of_unchanged_input_witness :
    (local_ticks cfgLeft (fun _ => key23Down) 5 settledLeft).debouncing = 0 ∧
    matrix_is_modified
      (scan_ticks cfgLeft (fun _ => key23Down) (fun _ => linkDown) 7
        (local_ticks cfgLeft (fun _ => key23Down) 5 settledLeft))
      = matrix_is_modified (local_ticks cfgLeft (fun _ => key23Down) 5 settledLeft) :=
  ⟨by decide,
    (idempotence_of_unchanged_input cfgLeft (fun _ => key23Down) (fun _ => linkDown)
      (local_ticks cfgLeft (fun _ => key23Down) 5 settledLeft) 7
      (by decide)
      (fun _ => (by decide : ∀ i, i < ROWS_PER_HAND cfgLeft →
        read_cols cfgLeft (key23Down i)
          = (local_ticks cfgLeft (fun _ => key23Down) 5 settledLeft).matrix_debouncing
            (i + offset cfgLeft)))).2.2.2.2.1⟩

/-! ## Sustained disconnect -/

/-- C19. From link error count 0 and arbitrary rows of the other half, after
`n ≥ ERROR_DISCONNECT_COUNT + 1` consecutive `matrix_scan` calls whose
transaction fails every row of the other half is zero, for every such `n`,
also when the 8-bit count has wrapped: rows `slaveOffset + i`, which for an
even row count are exactly the remote rows. -/
theorem remote_stays_released (cfg : Config) (hw : Nat → Hardware) (link : Nat → LinkInput)
    (s : State) (n : Nat) (h0 : s.error_count = 0)
    (hn : ERROR_DISCONNECT_COUNT + 1 ≤ n)
    (hfail : ∀ k, k < n → link_fails cfg (link k) = true) :
    (∀ i, i < ROWS_PER_HAND cfg →
      matrix_get_row (scan_ticks cfg hw link n s) (slaveOffset cfg + i) = 0) ∧
    (cfg.MATRIX_ROWS % 2 = 0 → ∀ r, isRemoteRow cfg r →
      matrix_get_row (scan_ticks cfg hw link n s) r = 0) := by
  have hz : ∀ r, inBlock cfg (slaveOffset cfg) r →
      (scan_ticks cfg hw link n s).matrix r = 0 := by
    intro r hr
    rw [remote_rows_after_failures cfg hw link s n h0 hfail r hr]
    have : ¬ n ≤ ERROR_DISCONNECT_COUNT := by omega
    rw [if_neg this]
  constructor
  · intro i hi
    exact hz _ (by unfold inBlock; omega)
  · intro hEven r hr
    exact hz r ((isRemoteRow_iff cfg hEven r).mp hr)

/-- C19, instance: the left half with cached rows after 260 failed scans; the
8-bit count has wrapped to 4, below the threshold, and the rows of the other
half are zero. -/
theorem remote_stays_released_witness :
    (scan_ticks cfgLeft (fun _ => keysUp) (fun _ => linkDown) 260 cachedLeft).error_count = 4 ∧
    matrix_get_row cachedLeft 4 = 1 ∧
    ((∀ i, i < ROWS_PER_HAND cfgLeft →
      matrix_get_row (scan_ticks cfgLeft (fun _ => keysUp) (fun _ => linkDown) 260 cachedLeft)
        (slaveOffset cfgLeft + i) = 0) ∧
    (cfgLeft.MATRIX_ROWS % 2 = 0 → ∀ r, isRemoteRow cfgLeft r →
      matrix_get_row (scan_ticks cfgLeft (fun _ => keysUp) (fun _ => linkDown) 260 cachedLeft) r
        = 0)) :=
  ⟨(error_count_after_failures cfgLeft (fun _ => keysUp) (fun _ => linkDown) cachedLeft 260
      (by decide) (fun _ _ => (by decide : link_fails cfgLeft linkDown = true))).trans
      (by decide),
    by decide,
    remote_stays_released cfgLeft (fun _ => keysUp) (fun _ => linkDown) cachedLeft 260
      (by decide) (by decide) (fun _ _ => (by decide : link_fails cfgLeft linkDown = true))⟩

/-! ## Slave mode -/

theorem i2c_buffer_loop (off n : Nat) (s : State) :
    (forLoop n (fun i t => { t with
        i2c_slave_buffer := arr_set t.i2c_slave_buffer i (t.matrix (off + i) % 256) })
      s).debouncing = s.debouncing ∧
    (forLoop n (fun i t => { t with
        i2c_slave_buffer := arr_set t.i2c_slave_buffer i (t.matrix (off + i) % 256) })
      s).error_count = s.error_count ∧
    (forLoop n (fun i t => { t with
        i2c_slave_buffer := arr_set t.i2c_slave_buffer i (t.matrix (off + i) % 256) })
      s).matrix = s.matrix ∧
    (forLoop n (fun i t => { t with
        i2c_slave_buffer := arr_set t.i2c_slave_buffer i (t.matrix (off + i) % 256) })
      s).matrix_debouncing = s.matrix_debouncing ∧
    (forLoop n (fun i t => { t with
        i2c_slave_buffer := arr_set t.i2c_slave_buffer i (t.matrix (off + i) % 256) })
      s).txled = s.txled ∧
    (forLoop n (fun i t => { t with
        i2c_slave_buffer := arr_set t.i2c_slave_buffer i (t.matrix (off + i) % 256) })
      s).serial_slave_buffer = s.serial_slave_buffer ∧
    ∀ j, (forLoop n (fun i t => { t with
        i2c_slave_buffer := arr_set t.i2c_slave_buffer i (t.matrix (off + i) % 256) })
      s).i2c_slave_buffer j = if j < n then s.matrix (off + j) % 256 else s.i2c_slave_buffer j := by
  induction n with
  | zero => exact ⟨rfl, rfl, rfl, rfl, rfl, rfl, fun j => by rw [if_neg (by omega)]; rfl⟩
  | succ k ih =>
    obtain ⟨i1, i2, i3, i4, i5, i6, i7⟩ := ih
    refine ⟨i1, i2, i3, i4, i5, i6, ?_⟩
    intro j
    rw [forLoop_succ]
    show arr_set _ k _ j = _
    rw [arr_set_apply, i7 j, i3]
    by_cases hj : j = k
    · subst hj
      rw [if_pos rfl, if_pos (by omega)]
    · by_cases hlt : j < k
      · rw [if_neg hj, if_pos hlt, if_pos (by omega)]
      · rw [if_neg hj, if_neg hlt, if_neg (by omega)]

theorem serial_buffer_loop (off n : Nat) (s : State) :
    (forLoop n (fun i t => { t with
        serial_slave_buffer := arr_set t.serial_slave_buffer i (t.matrix (off + i) % 256) })
      s).debouncing = s.debouncing ∧
    (forLoop n (fun i t => { t with
        serial_slave_buffer := arr_set t.serial_slave_buffer i (t.matrix (off + i) % 256) })
      s).error_count = s.error_count ∧
    (forLoop n (fun i t => { t with
        serial_slave_buffer := arr_set t.serial_slave_buffer i (t.matrix (off + i) % 256) })
      s).matrix = s.matrix ∧
    (forLoop n (fun i t => { t with
        serial_slave_buffer := arr_set t.serial_slave_buffer i (t.matrix (off + i) % 256) })
      s).matrix_debouncing = s.matrix_debouncing ∧
    (forLoop n (fun i t => { t with
        serial_slave_buffer := arr_set t.serial_slave_buffer i (t.matrix (off + i) % 256) })
      s).txled = s.txled ∧
    (forLoop n (fun i t => { t with
        serial_slave_buffer := arr_set t.serial_slave_buffer i (t.matrix (off + i) % 256) })
      s).i2c_slave_buffer = s.i2c_slave_buffer ∧
    ∀ j, (forLoop n (fun i t => { t with
        serial_slave_buffer := arr_set t.serial_slave_buffer i (t.matrix (off + i) % 256) })
      s).serial_slave_buffer j
        = if j < n then s.matrix (off + j) % 256 else s.serial_slave_buffer j := by
  induction n with
  | zero => exact ⟨rfl, rfl, rfl, rfl, rfl, rfl, fun j => by rw [if_neg (by omega)]; rfl⟩
  | succ k ih =>
    obtain ⟨i1, i2, i3, i4, i5, i6, i7⟩ := ih
    refine ⟨i1, i2, i3, i4, i5, i6, ?_⟩
    intro j
    rw [forLoop_succ]
    show arr_set _ k _ j = _
    rw [arr_set_apply, i7 j, i3]
    by_cases hj : j = k
    · subst hj
      rw [if_pos rfl, if_pos (by omega)]
    · by_cases hlt : j < k
      · rw [if_neg hj, if_pos hlt, if_pos (by omega)]
      · rw [if_neg hj, if_neg hlt, if_neg (by omega)]

/-- The offset computed in `matrix_slave_scan` is the offset of
`_matrix_scan`. -/
theorem slave_offset_eq (cfg : Config) :
    (if cfg.isLeftHand then 0 else cfg.MATRIX_ROWS / 2) = offset cfg := rfl

/-- One call of `matrix_slave_scan`: every field but the buffer of the build
is what `_matrix_scan` leaves, and entry `i` of that buffer is the low byte of
the committed local row `i`. -/
theorem matrix_slave_scan_state (cfg : Config) (hw : Hardware) (s : State) :
    (matrix_slave_scan cfg hw s).debouncing = (_matrix_scan cfg hw s).2.debouncing ∧
    (matrix_slave_scan cfg hw s).error_count = (_matrix_scan cfg hw s).2.error_count ∧
    (matrix_slave_scan cfg hw s).matrix = (_matrix_scan cfg hw s).2.matrix ∧
    (matrix_slave_scan cfg hw s).matrix_debouncing
      = (_matrix_scan cfg hw s).2.matrix_debouncing ∧
    (matrix_slave_scan cfg hw s).txled = (_matrix_scan cfg hw s).2.txled ∧
    (∀ i, i < ROWS_PER_HAND cfg →
      slave_buffer cfg (matrix_slave_scan cfg hw s) i
        = (_matrix_scan cfg hw s).2.matrix (offset cfg + i) % 256) ∧
    (cfg.USE_I2C = true →
      (matrix_slave_scan cfg hw s).serial_slave_buffer
        = (_matrix_scan cfg hw s).2.serial_slave_buffer) ∧
    (cfg.USE_I2C = false →
      (matrix_slave_scan cfg hw s).i2c_slave_buffer
        = (_matrix_scan cfg hw s).2.i2c_slave_buffer) := by
  unfold matrix_slave_scan slave_buffer
  dsimp only
  rw [slave_offset_eq]
  by_cases hb : cfg.USE_I2C = true
  · rw [if_pos hb]
    obtain ⟨g1, g2, g3, g4, g5, g6, g7⟩ :=
      i2c_buffer_loop (offset cfg) (ROWS_PER_HAND cfg) (_matrix_scan cfg hw s).2
    refine ⟨g1, g2, g3, g4, g5, ?_, fun _ => g6, ?_⟩
    · intro i hi
      rw [if_pos hb, g7 i, if_pos hi]
    · intro hf
      rw [hb] at hf
      exact absurd hf (by decide)
  · rw [if_neg hb]
    obtain ⟨g1, g2, g3, g4, g5, g6, g7⟩ :=
      serial_buffer_loop (offset cfg) (ROWS_PER_HAND cfg) (_matrix_scan cfg hw s).2
    refine ⟨g1, g2, g3, g4, g5, ?_, ?_, fun _ => g6⟩
    · intro i hi
      rw [if_neg hb, g7 i, if_pos hi]
    · intro ht
      exact absurd ht hb

/-- Limit of the byte-wide buffer: on a build with 10 columns (16-bit rows) and
key (0,8) held down, the fifth `matrix_slave_scan` commits row 0 as 256, and
entry 0 of the transport buffer holds its low byte, 0. -/
theorem slave_buffer_truncates_wide_row :
    cfgWide.USE_I2C = false ∧
    matrix_get_row (slave_ticks cfgWide (fun _ => key08Down) 5 (bootState cfgWide false))
      (offset cfgWide + 0) = 256 ∧
    (slave_ticks cfgWide (fun _ => key08Down) 5
      (bootState cfgWide false)).serial_slave_buffer 0 = 0 ∧
    slave_buffer cfgWide (slave_ticks cfgWide (fun _ => key08Down) 5
      (bootState cfgWide false)) 0 = 0 := by
  decide

/-- State after `matrix_slave_scan` on any build: the counter and both
matrices are as `_matrix_scan` leaves them, the link error count, the LED and
every row outside the local block are unchanged, and entry `i` of the
transport buffer of the build is the low byte of the committed local row
`matrix[offset+i]`. -/
theorem slave_scan_low_byte (cfg : Config) (hw : Hardware) (s : State) :
    (matrix_slave_scan cfg hw s).debouncing = (_matrix_scan cfg hw s).2.debouncing ∧
    (matrix_slave_scan cfg hw s).matrix = (_matrix_scan cfg hw s).2.matrix ∧
    (matrix_slave_scan cfg hw s).matrix_debouncing
      = (_matrix_scan cfg hw s).2.matrix_debouncing ∧
    (matrix_slave_scan cfg hw s).error_count = s.error_count ∧
    (matrix_slave_scan cfg hw s).txled = s.txled ∧
    (∀ r, ¬ inBlock cfg (offset cfg) r →
      matrix_get_row (matrix_slave_scan cfg hw s) r = matrix_get_row s r) ∧
    (∀ i, i < ROWS_PER_HAND cfg →
      matrix_get_row (matrix_slave_scan cfg hw s) (slaveOffset cfg + i)
        = matrix_get_row s (slaveOffset cfg + i)) ∧
    (∀ i, i < ROWS_PER_HAND cfg →
      slave_buffer cfg (matrix_slave_scan cfg hw s) i
        = matrix_get_row (matrix_slave_scan cfg hw s) (offset cfg + i) % 256) ∧
    (∀ i, i < ROWS_PER_HAND cfg →
      matrix_get_row (matrix_slave_scan cfg hw s) (offset cfg + i) < 256 →
      slave_buffer cfg (matrix_slave_scan cfg hw s) i
        = matrix_get_row (matrix_slave_scan cfg hw s) (offset cfg + i)) := by
  obtain ⟨g1, g2, g3, g4, g5, g6, _, _⟩ := matrix_slave_scan_state cfg hw s
  obtain ⟨r1, r2, _, _⟩ := matrix_scan_local_rest cfg hw s
  have hbuf : ∀ i, i < ROWS_PER_HAND cfg →
      slave_buffer cfg (matrix_slave_scan cfg hw s) i
        = matrix_get_row (matrix_slave_scan cfg hw s) (offset cfg + i) % 256 := by
    intro i hi
    show _ = (matrix_slave_scan cfg hw s).matrix (offset cfg + i) % 256
    rw [g6 i hi, g3]
  have hframe : ∀ r, ¬ inBlock cfg (offset cfg) r →
      matrix_get_row (matrix_slave_scan cfg hw s) r = matrix_get_row s r := by
    intro r hr
    show (matrix_slave_scan cfg hw s).matrix r = s.matrix r
    rw [g3]
    exact matrix_scan_local_remote_rows cfg hw s r hr
  refine ⟨g1, g3, g4, g2.trans r1, g5.trans r2, hframe, ?_, hbuf, ?_⟩
  · intro i hi
    apply hframe
    intro hloc
    exact blocks_disjoint cfg _ hloc (by unfold inBlock; omega)
  · intro i hi hlt
    rw [hbuf i hi]
    exact Nat.mod_eq_of_lt hlt

/-! ## A settled matrix shows the latest sample -/

theorem matrix_init_rows (s : State) (n : Nat) :
    ∀ r, (forLoop n (fun i t => { t with
          matrix := arr_set t.matrix i 0
          matrix_debouncing := arr_set t.matrix_debouncing i 0 }) s).matrix r
        = (if r < n then 0 else s.matrix r) ∧
      (forLoop n (fun i t => { t with
          matrix := arr_set t.matrix i 0
          matrix_debouncing := arr_set t.matrix_debouncing i 0 }) s).matrix_debouncing r
        = (if r < n then 0 else s.matrix_debouncing r) := by
  induction n with
  | zero =>
    intro r
    rw [if_neg (by omega), if_neg (by omega)]
    exact ⟨rfl, rfl⟩
  | succ k ih =>
    intro r
    obtain ⟨h1, h2⟩ := ih r
    rw [forLoop_succ]
    constructor
    · show arr_set _ k 0 r = _
      rw [arr_set_apply, h1]
      by_cases hr : r = k
      · rw [if_pos hr, if_pos (by omega)]
      · by_cases hlt : r < k
        · rw [if_neg hr, if_pos hlt, if_pos (by omega)]
        · rw [if_neg hr, if_neg hlt, if_neg (by omega)]
    · show arr_set _ k 0 r = _
      rw [arr_set_apply, h2]
      by_cases hr : r = k
      · rw [if_pos hr, if_pos (by omega)]
      · by_cases hlt : r < k
        · rw [if_neg hr, if_pos hlt, if_pos (by omega)]
        · rw [if_neg hr, if_neg hlt, if_neg (by omega)]

/-- After `matrix_init` the committed and pending rows of this half are equal
(both zero). -/
theorem matrix_init_local_rows (cfg : Config) (s : State) (i : Nat)
    (hi : i < ROWS_PER_HAND cfg) :
    (matrix_init cfg s).matrix (i + offset cfg)
      = (matrix_init cfg s).matrix_debouncing (i + offset cfg) := by
  have hlt : i + offset cfg < cfg.MATRIX_ROWS := by
    unfold offset ROWS_PER_HAND at *
    by_cases hl : cfg.isLeftHand = true
    · rw [if_pos hl]; omega
    · rw [if_neg hl]; omega
  obtain ⟨h1, h2⟩ := matrix_init_rows s cfg.MATRIX_ROWS (i + offset cfg)
  show (forLoop cfg.MATRIX_ROWS _ s).matrix _ = (forLoop cfg.MATRIX_ROWS _ s).matrix_debouncing _
  rw [h1, h2, if_pos hlt, if_pos hlt]

theorem matrix_is_modified_iff (s : State) :
    matrix_is_modified s = true ↔ s.debouncing = 0 := by
  unfold matrix_is_modified
  by_cases h : s.debouncing = 0
  · simp [h]
  · simp [h]

/-- One local scan, with a threshold that is not 0 in the 8-bit counter: the
pending local rows become the readings, and if the counter is 0 afterwards the
committed local rows are the readings too. -/
theorem scan_keeps_settled (cfg : Config) (hw : Hardware) (s : State)
    (hD : cfg.DEBOUNCE % 256 ≠ 0) (hs : local_rows_settled cfg s) :
    (∀ i, i < ROWS_PER_HAND cfg →
      (_matrix_scan cfg hw s).2.matrix_debouncing (i + offset cfg) = read_cols cfg (hw i)) ∧
    ((_matrix_scan cfg hw s).2.debouncing = 0 →
      ∀ i, i < ROWS_PER_HAND cfg →
        (_matrix_scan cfg hw s).2.matrix (i + offset cfg) = read_cols cfg (hw i)) := by
  have hpend : ∀ i, i < ROWS_PER_HAND cfg →
      (_matrix_scan cfg hw s).2.matrix_debouncing (i + offset cfg) = read_cols cfg (hw i) := by
    intro i hi
    rw [matrix_scan_local_pending, if_pos (inBlock_local cfg i hi), Nat.add_sub_cancel]
  refine ⟨hpend, ?_⟩
  intro h0 i hi
  rw [matrix_scan_local_counter] at h0
  by_cases h1 : counter_after_sampling cfg hw s = 1
  · rw [matrix_scan_local_matrix, if_pos ⟨h1, inBlock_local cfg i hi⟩, Nat.add_sub_cancel]
  · have hc0 : counter_after_sampling cfg hw s = 0 := by omega
    have hst : ¬ unstable cfg hw s := by
      intro hu
      rw [counter_after_sampling_unstable cfg hw s hu] at hc0
      exact hD hc0
    have hd0 : s.debouncing = 0 := by
      rw [counter_after_sampling_stable cfg hw s hst] at hc0
      exact hc0
    obtain ⟨_, g2, g3⟩ := settled_scan cfg hw s hd0 hst
    rw [g3, hs hd0 i hi, ← g2]
    exact hpend i hi

/-- The agreement of committed with pending local rows at counter 0 is kept
by every call of the driver. -/
theorem call_keeps_settled (cfg : Config) (c : Call) (s : State)
    (hD : cfg.DEBOUNCE % 256 ≠ 0) (hs : local_rows_settled cfg s) :
    local_rows_settled cfg (c.apply cfg s) := by
  cases c with
  | init =>
    intro _ i hi
    exact matrix_init_local_rows cfg s i hi
  | scan hw l =>
    obtain ⟨h1, h2⟩ := scan_keeps_settled cfg hw s hD hs
    obtain ⟨l1, l2⟩ := link_update_local cfg l (_matrix_scan cfg hw s).2
    intro h0 i hi
    show (matrix_scan cfg hw l s).2.matrix _ = (matrix_scan cfg hw l s).2.matrix_debouncing _
    have h0b : (matrix_scan cfg hw l s).2.debouncing = 0 := h0
    rw [matrix_scan_state] at h0b ⊢
    rw [l1] at h0b
    rw [l2, link_update_local_rows cfg l _ _ (inBlock_local cfg i hi), h1 i hi]
    exact h2 h0b i hi
  | slave_scan hw =>
    obtain ⟨h1, h2⟩ := scan_keeps_settled cfg hw s hD hs
    obtain ⟨g1, _, g3, g4, _⟩ := matrix_slave_scan_state cfg hw s
    intro h0 i hi
    show (matrix_slave_scan cfg hw s).matrix _ = (matrix_slave_scan cfg hw s).matrix_debouncing _
    have h0b : (matrix_slave_scan cfg hw s).debouncing = 0 := h0
    rw [g1] at h0b
    rw [g3, g4, h1 i hi]
    exact h2 h0b i hi

theorem run_keeps_settled (cfg : Config) (calls : List Call) (s : State)
    (hD : cfg.DEBOUNCE % 256 ≠ 0) (hs : local_rows_settled cfg s) :
    local_rows_settled cfg (run cfg calls s) := by
  induction calls generalizing s with
  | nil => exact hs
  | cons c cs ih => exact ih (c.apply cfg s) (call_keeps_settled cfg c s hD hs)

theorem run_append_one (cfg : Config) (calls : List Call) (c : Call) (s : State) :
    run cfg (calls ++ [c]) s = c.apply cfg (run cfg calls s) := by
  induction calls generalizing s with
  | nil => rfl
  | cons d ds ih => exact ih (d.apply cfg s)

/-- After `matrix_init` and any further calls the committed local rows agree
with the pending ones whenever the counter is 0. -/
theorem settled_after_init (cfg : Config) (s0 : State) (calls : List Call)
    (hD : cfg.DEBOUNCE % 256 ≠ 0) :
    local_rows_settled cfg (run cfg (Call.init :: calls) s0) :=
  run_keeps_settled cfg calls (matrix_init cfg s0) hD
    (fun _ i hi => matrix_init_local_rows cfg s0 i hi)

/-- C18. With a threshold that is at least 1 as stored in the 8-bit counter
(`DEBOUNCE % 256 ≠ 0`, so every `DEBOUNCE` from 1 to 255): after `matrix_init`
and any sequence of further calls, whenever `matrix_is_modified` is true
(counter 0) every committed local row equals the pending row; and when the
sequence ends with a `matrix_scan` or `matrix_slave_scan` call, the pending
local rows are the readings of that call and, whenever `matrix_is_modified` is
true, so are the committed local rows. With `DEBOUNCE = 0` the property fails:
after `matrix_init` and one scan that sees key (2,3) down the counter is 0 and
the committed row 2 is not the reading. -/
theorem settled_matrix_shows_latest_sample (cfg : Config) (s0 : State) (calls : List Call)
    (hw : Hardware) (l : LinkInput) (hD : cfg.DEBOUNCE % 256 ≠ 0) :
    (matrix_is_modified (run cfg (Call.init :: calls) s0) = true →
      ∀ i, i < ROWS_PER_HAND cfg →
        matrix_get_row (run cfg (Call.init :: calls) s0) (i + offset cfg)
          = (run cfg (Call.init :: calls) s0).matrix_debouncing (i + offset cfg)) ∧
    ((∀ i, i < ROWS_PER_HAND cfg →
        (run cfg (Call.init :: (calls ++ [Call.scan hw l])) s0).matrix_debouncing
          (i + offset cfg) = read_cols cfg (hw i)) ∧
      (matrix_is_modified (run cfg (Call.init :: (calls ++ [Call.scan hw l])) s0) = true →
        ∀ i, i < ROWS_PER_HAND cfg →
          matrix_get_row (run cfg (Call.init :: (calls ++ [Call.scan hw l])) s0)
            (i + offset cfg) = read_cols cfg (hw i))) ∧
    ((∀ i, i < ROWS_PER_HAND cfg →
        (run cfg (Call.init :: (calls ++ [Call.slave_scan hw])) s0).matrix_debouncing
          (i + offset cfg) = read_cols cfg (hw i)) ∧
      (matrix_is_modified (run cfg (Call.init :: (calls ++ [Call.slave_scan hw])) s0) = true →
        ∀ i, i < ROWS_PER_HAND cfg →
          matrix_get_row (run cfg (Call.init :: (calls ++ [Call.slave_scan hw])) s0)
            (i + offset cfg) = read_cols cfg (hw i))) ∧
    (cfgNoDebounce.DEBOUNCE = 0 ∧
      matrix_is_modified (run cfgNoDebounce [Call.init, Call.scan key23Down linkDown]
        (bootState cfgNoDebounce false)) = true ∧
      matrix_get_row (run cfgNoDebounce [Call.init, Call.scan key23Down linkDown]
        (bootState cfgNoDebounce false)) 2 ≠ read_cols cfgNoDebounce (key23Down 2)) := by
  have hS := settled_after_init cfg s0 calls hD
  obtain ⟨k1, k2⟩ := scan_keeps_settled cfg hw (run cfg (Call.init :: calls) s0) hD hS
  refine ⟨?_, ⟨?_, ?_⟩, ⟨?_, ?_⟩, by decide⟩
  · intro hm i hi
    exact hS ((matrix_is_modified_iff _).mp hm) i hi
  · intro i hi
    show (run cfg (calls ++ [Call.scan hw l]) (matrix_init cfg s0)).matrix_debouncing _ = _
    rw [run_append_one]
    show (matrix_scan cfg hw l (run cfg (Call.init :: calls) s0)).2.matrix_debouncing _ = _
    rw [matrix_scan_state, (link_update_local cfg l _).2]
    exact k1 i hi
  · intro hm i hi
    have h0 := (matrix_is_modified_iff _).mp hm
    show (run cfg (calls ++ [Call.scan hw l]) (matrix_init cfg s0)).matrix _ = _
    have h0b : (run cfg (calls ++ [Call.scan hw l]) (matrix_init cfg s0)).debouncing = 0 := h0
    rw [run_append_one] at h0b ⊢
    have h0c : (matrix_scan cfg hw l (run cfg (Call.init :: calls) s0)).2.debouncing = 0 := h0b
    show (matrix_scan cfg hw l (run cfg (Call.init :: calls) s0)).2.matrix _ = _
    rw [matrix_scan_state] at h0c ⊢
    rw [(link_update_local cfg l _).1] at h0c
    rw [link_update_local_rows cfg l _ _ (inBlock_local cfg i hi)]
    exact k2 h0c i hi
  · intro i hi
    show (run cfg (calls ++ [Call.slave_scan hw]) (matrix_init cfg s0)).matrix_debouncing _ = _
    rw [run_append_one]
    show (matrix_slave_scan cfg hw (run cfg (Call.init :: calls) s0)).matrix_debouncing _ = _
    rw [(matrix_slave_scan_state cfg hw _).2.2.2.1]
    exact k1 i hi
  · intro hm i hi
    have h0 := (matrix_is_modified_iff _).mp hm
    show (run cfg (calls ++ [Call.slave_scan hw]) (matrix_init cfg s0)).matrix _ = _
    have h0b : (run cfg (calls ++ [Call.slave_scan hw]) (matrix_init cfg s0)).debouncing = 0 :=
      h0
    rw [run_append_one] at h0b ⊢
    have h0c : (matrix_slave_scan cfg hw (run cfg (Call.init :: calls) s0)).debouncing = 0 :=
      h0b
    show (matrix_slave_scan cfg hw (run cfg (Call.init :: calls) s0)).matrix _ = _
    rw [(matrix_slave_scan_state cfg hw _).1] at h0c
    rw [(matrix_slave_scan_state cfg hw _).2.2.1]
    exact k2 h0c i hi

/-- C18, instance: the left half (`DEBOUNCE = 5`) initialised and scanned five
times with key (2,3) down, the last scan with the link up; the counter is 0
and the committed local rows are the readings. -/
theorem settled_matrix_shows_latest_sample_witness :
    (cfgLeft.DEBOUNCE % 256 ≠ 0 ∧
      matrix_is_modified (run cfgLeft (Call.init ::
        ([Call.scan key23Down linkDown, Call.scan key23Down linkDown,
          Call.scan key23Down linkDown, Call.scan key23Down linkDown]
          ++ [Call.scan key23Down (linkUp (fun _ => 1))])) (bootState cfgLeft false)) = true) ∧
    (matrix_is_modified (run cfgLeft (Call.init ::
        ([Call.scan key23Down linkDown, Call.scan key23Down linkDown,
          Call.scan key23Down linkDown, Call.scan key23Down linkDown]
          ++ [Call.scan key23Down (linkUp (fun _ => 1))])) (bootState cfgLeft false)) = true →
      ∀ i, i < ROWS_PER_HAND cfgLeft →
        matrix_get_row (run cfgLeft (Call.init ::
          ([Call.scan key23Down linkDown, Call.scan key23Down linkDown,
            Call.scan key23Down linkDown, Call.scan key23Down linkDown]
            ++ [Call.scan key23Down (linkUp (fun _ => 1))])) (bootState cfgLeft false))
          (i + offset cfgLeft) = read_cols cfgLeft (key23Down i)) :=
  ⟨⟨by decide, by decide⟩,
    (settled_matrix_shows_latest_sample cfgLeft (bootState cfgLeft false)
      [Call.scan key23Down linkDown, Call.scan key23Down linkDown,
        Call.scan key23Down linkDown, Call.scan key23Down linkDown]
      key23Down (linkUp (fun _ => 1)) (by decide)).2.1.2⟩

/-! ## Reading the columns -/

/-- The contribution of column `k` to the result of `read_cols`, when the
shift stays below the sign bit of `int` and inside `matrix_row_t`. -/
theorem read_cols_term (cfg : Config) (pin : PinLevels) (k : Nat)
    (hR : k < cfg.ROW_BITS) (hI : k + 1 < cfg.INT_BITS) :
    to_row cfg (if pin k then 0 else int_shl1 cfg k) = if pin k then 0 else 2 ^ k := by
  by_cases hp : pin k = true
  · rw [if_pos hp, if_pos hp]
    unfold to_row
    rw [Int.zero_emod]
    rfl
  · rw [if_neg hp, if_neg hp]
    have n1 : 2 ^ k < 2 ^ cfg.INT_BITS := Nat.pow_lt_pow_right (by decide) (by omega)
    have n2 : 2 ^ k < 2 ^ (cfg.INT_BITS - 1) := Nat.pow_lt_pow_right (by decide) (by omega)
    have n3 : 2 ^ k < 2 ^ cfg.ROW_BITS := Nat.pow_lt_pow_right (by decide) hR
    have hnn : (0 : Int) ≤ (2 : Int) ^ k := by positivity
    have h1 : (2 : Int) ^ k % (2 : Int) ^ cfg.INT_BITS = (2 : Int) ^ k :=
      Int.emod_eq_of_lt hnn (by exact_mod_cast n1)
    have h2 : (2 : Int) ^ k < (2 : Int) ^ (cfg.INT_BITS - 1) := by exact_mod_cast n2
    have h3 : (2 : Int) ^ k % (2 : Int) ^ cfg.ROW_BITS = (2 : Int) ^ k :=
      Int.emod_eq_of_lt hnn (by exact_mod_cast n3)
    have hcast : (2 : Int) ^ k = ((2 ^ k : Nat) : Int) := by push_cast; rfl
    have hshl : int_shl1 cfg k = (2 : Int) ^ k := by
      unfold int_shl1
      dsimp only
      rw [h1, if_pos h2]
    unfold to_row
    rw [hshl, h3, hcast, Int.toNat_natCast]

/-- Bits of the value built by the first `n` iterations of the loop of
`read_cols`. -/
theorem read_cols_loop_bits (cfg : Config) (pin : PinLevels) (n : Nat)
    (hR : n ≤ cfg.ROW_BITS) (hI : n < cfg.INT_BITS) (x : Nat) :
    (forLoop n
      (fun x result => result ||| to_row cfg (if pin x then 0 else int_shl1 cfg x)) 0).testBit x
      = (decide (x < n) && !pin x) := by
  induction n with
  | zero =>
    rw [forLoop_zero, Nat.zero_testBit]
    simp
  | succ k ih =>
    rw [forLoop_succ]
    show (_ ||| to_row cfg (if pin k then 0 else int_shl1 cfg k)).testBit x = _
    rw [Nat.testBit_or, ih (by omega) (by omega),
      read_cols_term cfg pin k (by omega) (by omega)]
    by_cases hxk : x = k
    · subst hxk
      cases hp : pin x
      · simp [Nat.testBit_two_pow]
      · simp
    · have hne : ¬ k = x := fun h => hxk h.symm
      by_cases hlt : x < k
      · have hlt2 : x < k + 1 := by omega
        cases hp : pin k
        · simp [Nat.testBit_two_pow, hne, hlt, hlt2]
        · simp [hlt, hlt2]
      · have hlt2 : ¬ x < k + 1 := by omega
        cases hp : pin k
        · simp [Nat.testBit_two_pow, hne, hlt, hlt2]
        · simp [hlt, hlt2]

/-- C17. When `matrix_row_t` holds all the columns (`MATRIX_COLS ≤ ROW_BITS`)
and no shift `1 << x` reaches the sign bit of `int`
(`MATRIX_COLS < INT_BITS`), for every assignment of pin levels bit `x` of the
result of `read_cols` is 1 exactly when `x < MATRIX_COLS` and the pin of
column `x` reads low; every bit at index `MATRIX_COLS` or above is 0. -/
theorem read_cols_polarity_and_order (cfg : Config) (pin : PinLevels)
    (hC : cfg.MATRIX_COLS ≤ cfg.ROW_BITS) (hI : cfg.MATRIX_COLS < cfg.INT_BITS) :
    (∀ x, x < cfg.MATRIX_COLS → ((read_cols cfg pin).testBit x = true ↔ pin x = false)) ∧
    (∀ x, cfg.MATRIX_COLS ≤ x → (read_cols cfg pin).testBit x = false) := by
  have h := read_cols_loop_bits cfg pin cfg.MATRIX_COLS hC hI
  constructor
  · intro x hx
    show (forLoop cfg.MATRIX_COLS _ 0).testBit x = true ↔ _
    rw [h x]
    simp [hx]
  · intro x hx
    show (forLoop cfg.MATRIX_COLS _ 0).testBit x = false
    rw [h x]
    have : ¬ x < cfg.MATRIX_COLS := by omega
    simp [this]

/-- C17, instance: the left half (6 columns, 8-bit rows, 16-bit `int`) with
the pin of column 3 low. -/
theorem read_cols_polarity_and_order_witness :
    (cfgLeft.MATRIX_COLS ≤ cfgLeft.ROW_BITS ∧ cfgLeft.MATRIX_COLS < cfgLeft.INT_BITS) ∧
    ((∀ x, x < cfgLeft.MATRIX_COLS →
      ((read_cols cfgLeft (key23Down 2)).testBit x = true ↔ key23Down 2 x = false)) ∧
    (∀ x, cfgLeft.MATRIX_COLS ≤ x → (read_cols cfgLeft (key23Down 2)).testBit x = false)) :=
  ⟨⟨by decide, by decide⟩,
    read_cols_polarity_and_order cfgLeft (key23Down 2) (by decide) (by decide)⟩

/-! ## The query interface -/

/-- The bit read by `matrix_is_on`, for a column inside the promoted type of
`matrix_row_t`. -/
theorem matrix_is_on_bit (cfg : Config) (s : State) (row col : Nat)
    (h : col < max cfg.ROW_BITS cfg.INT_BITS) :
    matrix_is_on cfg s row col = (s.matrix row).testBit col := by
  have hmod : 2 ^ col % 2 ^ max cfg.ROW_BITS cfg.INT_BITS = 2 ^ col :=
    Nat.mod_eq_of_lt (Nat.pow_lt_pow_right (by decide) h)
  unfold matrix_is_on
  rw [Nat.one_shiftLeft, hmod, Nat.and_two_pow]
  have hpos : 2 ^ col ≠ 0 := by positivity
  cases (s.matrix row).testBit col
  · simp
  · simp [hpos]

/-- The loop of `matrix_key_count` computes the sum of the per-row counts
modulo 256. -/
theorem key_count_loop (s : State) (n : Nat) :
    forLoop n (fun i count => (count + bitpop16 (s.matrix i)) % 256) 0
      = (Finset.sum (Finset.range n) (fun i => bitpop16 (s.matrix i))) % 256 := by
  induction n with
  | zero => rfl
  | succ k ih =>
    rw [forLoop_succ, Finset.sum_range_succ]
    show (forLoop k _ 0 + bitpop16 (s.matrix k)) % 256 = _
    rw [ih, Nat.mod_add_mod]

/-- For a row that has no bit at or above `cols ≤ 16`, `bitpop16` counts the
set bits below `cols`. -/
theorem bitpop16_row (v cols : Nat) (hc : cols ≤ 16) (hv : v < 2 ^ cols) :
    bitpop16 v = ((Finset.range cols).filter (fun c => v.testBit c = true)).card := by
  have h16 : v < 2 ^ 16 := lt_of_lt_of_le hv (Nat.pow_le_pow_right (by decide) hc)
  unfold bitpop16
  rw [Nat.mod_eq_of_lt h16]
  congr 1
  ext b
  simp only [Finset.mem_filter, Finset.mem_range]
  constructor
  · rintro ⟨_, ht⟩
    refine ⟨?_, ht⟩
    by_contra hb
    have hle : 2 ^ cols ≤ 2 ^ b := Nat.pow_le_pow_right (by decide) (by omega)
    have hf : v.testBit b = false := Nat.testBit_lt_two_pow (lt_of_lt_of_le hv hle)
    rw [hf] at ht
    exact absurd ht (by decide)
  · rintro ⟨hb, ht⟩
    exact ⟨by omega, ht⟩

/-- C16, counterexample to the claim as stated. On the left half (8 rows of 6
columns, 8-bit rows, so every given of the claim holds), one scan after
power-on whose transaction succeeds and delivers the byte 255 for each of the
four rows of the other half: the bytes are stored unmasked, `matrix_key_count`
is 32, and the pairs `(row, col)` with `row < MATRIX_ROWS`, `col < MATRIX_COLS`
for which `matrix_is_on` is true number 24. -/
theorem key_count_counts_bits_beyond_columns :
    link_fails cfgLeft (linkUp (fun _ => 255)) = false ∧
    cfgLeft.ROW_BITS ≤ 16 ∧
    cfgLeft.MATRIX_ROWS * cfgLeft.MATRIX_COLS ≤ 255 ∧
    matrix_get_row
      (matrix_scan cfgLeft keysUp (linkUp (fun _ => 255)) (bootState cfgLeft false)).2 4
        = 255 ∧
    matrix_key_count cfgLeft
      (matrix_scan cfgLeft keysUp (linkUp (fun _ => 255)) (bootState cfgLeft false)).2 = 32 ∧
    ((Finset.range cfgLeft.MATRIX_ROWS ×ˢ Finset.range cfgLeft.MATRIX_COLS).filter
      (fun p => matrix_is_on cfgLeft
        (matrix_scan cfgLeft keysUp (linkUp (fun _ => 255)) (bootState cfgLeft false)).2
        p.1 p.2 = true)).card = 24 := by
  decide

/-- C16, as amended. When `matrix_row_t` holds all the columns and is at most
16 bits wide (`MATRIX_COLS ≤ ROW_BITS ≤ 16`), `MATRIX_ROWS * MATRIX_COLS ≤ 255`
and no row of the matrix has a bit set at index `MATRIX_COLS` or above: for
every `row < MATRIX_ROWS` and `col < MATRIX_COLS`, `matrix_is_on(row, col)` is
true exactly when bit `col` of `matrix_get_row(row)` is 1 (this part needs no
condition on the rows), and `matrix_key_count()` is the number of such pairs
`(row, col)` for which `matrix_is_on` is true, local and remote rows alike. -/
theorem query_interface_consistent (cfg : Config) (s : State)
    (hC : cfg.MATRIX_COLS ≤ cfg.ROW_BITS) (hW : cfg.ROW_BITS ≤ 16)
    (hmask : ∀ r, r < cfg.MATRIX_ROWS → s.matrix r < 2 ^ cfg.MATRIX_COLS)
    (hcnt : cfg.MATRIX_ROWS * cfg.MATRIX_COLS ≤ 255) :
    (∀ row col, row < cfg.MATRIX_ROWS → col < cfg.MATRIX_COLS →
      (matrix_is_on cfg s row col = true ↔ (matrix_get_row s row).testBit col = true)) ∧
    matrix_key_count cfg s =
      ((Finset.range cfg.MATRIX_ROWS ×ˢ Finset.range cfg.MATRIX_COLS).filter
        (fun p => matrix_is_on cfg s p.1 p.2 = true)).card := by
  have hbit : ∀ row col, col < cfg.MATRIX_COLS →
      matrix_is_on cfg s row col = (s.matrix row).testBit col := by
    intro row col hcol
    exact matrix_is_on_bit cfg s row col
      (lt_of_lt_of_le hcol (le_trans hC (le_max_left _ _)))
  have hrow : ∀ r, r ∈ Finset.range cfg.MATRIX_ROWS →
      bitpop16 (s.matrix r)
        = ((Finset.range cfg.MATRIX_COLS).filter
            (fun c => matrix_is_on cfg s r c = true)).card := by
    intro r hr
    rw [bitpop16_row (s.matrix r) cfg.MATRIX_COLS (le_trans hC hW)
      (hmask r (Finset.mem_range.mp hr))]
    congr 1
    apply Finset.filter_congr
    intro c hc
    rw [hbit r c (Finset.mem_range.mp hc)]
  have hpairs : ((Finset.range cfg.MATRIX_ROWS ×ˢ Finset.range cfg.MATRIX_COLS).filter
        (fun p => matrix_is_on cfg s p.1 p.2 = true)).card
      = Finset.sum (Finset.range cfg.MATRIX_ROWS) (fun r =>
          ((Finset.range cfg.MATRIX_COLS).filter
            (fun c => matrix_is_on cfg s r c = true)).card) := by
    rw [Finset.card_filter, Finset.sum_product]
    apply Finset.sum_congr rfl
    intro r _
    rw [Finset.card_filter]
  have hbound : Finset.sum (Finset.range cfg.MATRIX_ROWS) (fun r =>
        ((Finset.range cfg.MATRIX_COLS).filter
          (fun c => matrix_is_on cfg s r c = true)).card) ≤ 255 := by
    have h1 := Finset.sum_le_card_nsmul (Finset.range cfg.MATRIX_ROWS)
      (fun r => ((Finset.range cfg.MATRIX_COLS).filter
          (fun c => matrix_is_on cfg s r c = true)).card) cfg.MATRIX_COLS
      (fun r _ => by
        have := Finset.card_filter_le (Finset.range cfg.MATRIX_COLS)
          (fun c => matrix_is_on cfg s r c = true)
        rw [Finset.card_range] at this
        exact this)
    rw [Finset.card_range, smul_eq_mul] at h1
    omega
  constructor
  · intro row col _ hcol
    show matrix_is_on cfg s row col = true ↔ (s.matrix row).testBit col = true
    rw [hbit row col hcol]
  · unfold matrix_key_count
    rw [key_count_loop, Finset.sum_congr rfl hrow, hpairs]
    exact Nat.mod_eq_of_lt (by omega)

/-- C16, instance of the amended statement: the left half (8 rows of 6
columns) with the four rows of
the other half cached as 1; four keys are on. -/
theorem query_interface_consistent_witness :
    matrix_key_count cfgLeft cachedLeft = 4 ∧
    matrix_key_count cfgLeft cachedLeft =
      ((Finset.range cfgLeft.MATRIX_ROWS ×ˢ Finset.range cfgLeft.MATRIX_COLS).filter
        (fun p => matrix_is_on cfgLeft cachedLeft p.1 p.2 = true)).card :=
  ⟨by decide,
    (query_interface_consistent cfgLeft cachedLeft (by decide) (by decide) (by decide)
      (by decide)).2⟩

/-! ## Rows are `matrix_row_t` values -/

theorem to_row_lt (cfg : Config) (v : Int) : to_row cfg v < 2 ^ cfg.ROW_BITS := by
  have hpos : (0 : Int) < (2 : Int) ^ cfg.ROW_BITS := by positivity
  have h1 := Int.emod_lt_of_pos v hpos
  have h0 := Int.emod_nonneg v (ne_of_gt hpos)
  have h2 : ((v % (2 : Int) ^ cfg.ROW_BITS).toNat : Int) < ((2 ^ cfg.ROW_BITS : Nat) : Int) := by
    rw [Int.toNat_of_nonneg h0]
    push_cast
    exact h1
  unfold to_row
  exact_mod_cast h2

/-- The result of `read_cols` is a `matrix_row_t` value. -/
theorem read_cols_lt (cfg : Config) (pin : PinLevels) :
    read_cols cfg pin < 2 ^ cfg.ROW_BITS := by
  unfold read_cols
  refine forLoop_keeps (fun v : Nat => v < 2 ^ cfg.ROW_BITS)
    (fun x result => result ||| to_row cfg (if pin x then 0 else int_shl1 cfg x))
    ?_ cfg.MATRIX_COLS 0 (by positivity)
  intro x v hv
  exact Nat.or_lt_two_pow hv (to_row_lt cfg _)

/-- After a local scan a committed local row is a `matrix_row_t` value if it
was one before. -/
theorem matrix_scan_local_row_lt (cfg : Config) (hw : Hardware) (s : State) (r : Nat)
    (hr : s.matrix r < 2 ^ cfg.ROW_BITS) :
    (_matrix_scan cfg hw s).2.matrix r < 2 ^ cfg.ROW_BITS := by
  rw [matrix_scan_local_matrix]
  by_cases h : counter_after_sampling cfg hw s = 1 ∧ inBlock cfg (offset cfg) r
  · rw [if_pos h]
    exact read_cols_lt cfg _
  · rw [if_neg h]
    exact hr

/-- After a local scan a pending row is a `matrix_row_t` value if it was one
before. -/
theorem matrix_scan_local_pending_lt (cfg : Config) (hw : Hardware) (s : State) (r : Nat)
    (hr : s.matrix_debouncing r < 2 ^ cfg.ROW_BITS) :
    (_matrix_scan cfg hw s).2.matrix_debouncing r < 2 ^ cfg.ROW_BITS := by
  rw [matrix_scan_local_pending]
  by_cases h : inBlock cfg (offset cfg) r
  · rw [if_pos h]
    exact read_cols_lt cfg _
  · rw [if_neg h]
    exact hr

/-- The link update stores only `matrix_row_t` values. -/
theorem link_update_row_lt (cfg : Config) (l : LinkInput) (s : State) (r : Nat)
    (hr : s.matrix r < 2 ^ cfg.ROW_BITS) :
    (link_update cfg l s).matrix r < 2 ^ cfg.ROW_BITS := by
  have hpos : 0 < 2 ^ cfg.ROW_BITS := by positivity
  by_cases h : link_fails cfg l = true
  · rw [(link_update_fail cfg l s h).2.2.2.2 r]
    by_cases hz : ERROR_DISCONNECT_COUNT < (s.error_count + 1) % 256 ∧
        inBlock cfg (slaveOffset cfg) r
    · rw [if_pos hz]; exact hpos
    · rw [if_neg hz]; exact hr
  · have hok : link_fails cfg l = false := by simpa using h
    obtain ⟨hi2c, hser⟩ := link_fails_false cfg l hok
    rw [(link_update_ok cfg l s hok).2.2.2.2]
    unfold transaction
    by_cases hb : cfg.USE_I2C = true
    · obtain ⟨h1, h2, h3⟩ := hi2c hb
      rw [if_pos hb, i2c_transaction_ok_matrix cfg l s h1 h2 h3]
      by_cases hin : slaveOffset cfg ≤ r ∧
          r < slaveOffset cfg + (ROWS_PER_HAND cfg - 1 + 1)
      · rw [if_pos hin]; exact Nat.mod_lt _ hpos
      · rw [if_neg hin]; exact hr
    · have hb2 : cfg.USE_I2C = false := by simpa using hb
      rw [if_neg hb, serial_transaction_ok_matrix cfg l s (hser hb2)]
      by_cases hin : inBlock cfg (slaveOffset cfg) r
      · rw [if_pos hin]; exact Nat.mod_lt _ hpos
      · rw [if_neg hin]; exact hr

/-- Every call of the driver keeps all rows of both matrices `matrix_row_t`
values. -/
theorem call_keeps_rows_typed (cfg : Config) (c : Call) (s : State)
    (hs : ∀ r, s.matrix r < 2 ^ cfg.ROW_BITS ∧ s.matrix_debouncing r < 2 ^ cfg.ROW_BITS) :
    ∀ r, (c.apply cfg s).matrix r < 2 ^ cfg.ROW_BITS ∧
      (c.apply cfg s).matrix_debouncing r < 2 ^ cfg.ROW_BITS := by
  have hpos : 0 < 2 ^ cfg.ROW_BITS := by positivity
  intro r
  cases c with
  | init =>
    obtain ⟨h1, h2⟩ := matrix_init_rows s cfg.MATRIX_ROWS r
    show (forLoop cfg.MATRIX_ROWS _ s).matrix r < _ ∧
      (forLoop cfg.MATRIX_ROWS _ s).matrix_debouncing r < _
    rw [h1, h2]
    by_cases hlt : r < cfg.MATRIX_ROWS
    · rw [if_pos hlt, if_pos hlt]; exact ⟨hpos, hpos⟩
    · rw [if_neg hlt, if_neg hlt]; exact hs r
  | scan hw l =>
    show (matrix_scan cfg hw l s).2.matrix r < _ ∧
      (matrix_scan cfg hw l s).2.matrix_debouncing r < _
    rw [matrix_scan_state, (link_update_local cfg l _).2]
    exact ⟨link_update_row_lt cfg l _ r (matrix_scan_local_row_lt cfg hw s r (hs r).1),
      matrix_scan_local_pending_lt cfg hw s r (hs r).2⟩
  | slave_scan hw =>
    show (matrix_slave_scan cfg hw s).matrix r < _ ∧
      (matrix_slave_scan cfg hw s).matrix_debouncing r < _
    rw [(matrix_slave_scan_state cfg hw s).2.2.1, (matrix_slave_scan_state cfg hw s).2.2.2.1]
    exact ⟨matrix_scan_local_row_lt cfg hw s r (hs r).1,
      matrix_scan_local_pending_lt cfg hw s r (hs r).2⟩

/-- In every state reached from program start all rows of both matrices are
`matrix_row_t` values. -/
theorem reachable_rows_typed (cfg : Config) (led : Bool) (calls : List Call) :
    ∀ r, (run cfg calls (bootState cfg led)).matrix r < 2 ^ cfg.ROW_BITS ∧
      (run cfg calls (bootState cfg led)).matrix_debouncing r < 2 ^ cfg.ROW_BITS := by
  have hgen : ∀ (cs : List Call) (s : State),
      (∀ r, s.matrix r < 2 ^ cfg.ROW_BITS ∧ s.matrix_debouncing r < 2 ^ cfg.ROW_BITS) →
      ∀ r, (run cfg cs s).matrix r < 2 ^ cfg.ROW_BITS ∧
        (run cfg cs s).matrix_debouncing r < 2 ^ cfg.ROW_BITS := by
    intro cs
    induction cs with
    | nil => intro s hs; exact hs
    | cons c cs ih => intro s hs; exact ih (c.apply cfg s) (call_keeps_rows_typed cfg c s hs)
  have hpos : 0 < 2 ^ cfg.ROW_BITS := by positivity
  exact hgen calls (bootState cfg led) (fun _ => ⟨hpos, hpos⟩)

/-- C14. On a build whose `matrix_row_t` is one byte (`ROW_BITS = 8`, as for
this keyboard with its 6 columns), from any state whose committed local rows
are `matrix_row_t` values (every state reached from program start is one):
`matrix_slave_scan` leaves the counter and both matrices exactly as
`_matrix_scan` does on the same readings, and afterwards, for every
`i < ROWS_PER_HAND`, entry `i` of the transport buffer of the build equals the
committed local row `matrix[offset+i]`; the link error count, the LED and
every row outside the local block, so every row of the other half, are
unchanged. -/
theorem slave_scan_exposes_local_rows (cfg : Config) (hw : Hardware) (s : State)
    (hR : cfg.ROW_BITS = 8)
    (hs : ∀ i, i < ROWS_PER_HAND cfg → s.matrix (offset cfg + i) < 2 ^ cfg.ROW_BITS) :
    (matrix_slave_scan cfg hw s).debouncing = (_matrix_scan cfg hw s).2.debouncing ∧
    (matrix_slave_scan cfg hw s).matrix = (_matrix_scan cfg hw s).2.matrix ∧
    (matrix_slave_scan cfg hw s).matrix_debouncing
      = (_matrix_scan cfg hw s).2.matrix_debouncing ∧
    (∀ i, i < ROWS_PER_HAND cfg →
      slave_buffer cfg (matrix_slave_scan cfg hw s) i
        = matrix_get_row (matrix_slave_scan cfg hw s) (offset cfg + i)) ∧
    (matrix_slave_scan cfg hw s).error_count = s.error_count ∧
    (matrix_slave_scan cfg hw s).txled = s.txled ∧
    (∀ r, ¬ inBlock cfg (offset cfg) r →
      matrix_get_row (matrix_slave_scan cfg hw s) r = matrix_get_row s r) ∧
    (∀ i, i < ROWS_PER_HAND cfg →
      matrix_get_row (matrix_slave_scan cfg hw s) (slaveOffset cfg + i)
        = matrix_get_row s (slaveOffset cfg + i)) := by
  obtain ⟨g1, g2, g3, g4, g5, g6, g7, _, g9⟩ := slave_scan_low_byte cfg hw s
  refine ⟨g1, g2, g3, ?_, g4, g5, g6, g7⟩
  intro i hi
  apply g9 i hi
  show (matrix_slave_scan cfg hw s).matrix (offset cfg + i) < 256
  rw [g2]
  have h := matrix_scan_local_row_lt cfg hw s (offset cfg + i) (hs i hi)
  rw [hR] at h
  exact h

/-- C14, instance: the settled left half (8-bit rows) scanned four times with
key (2,3) down, then scanned once more in slave mode: the commit happens in
that call and the buffer entries are the committed local rows. -/
theorem slave_scan_exposes_local_rows_witness :
    (cfgLeft.ROW_BITS = 8 ∧
      matrix_get_row (matrix_slave_scan cfgLeft key23Down
        (local_ticks cfgLeft (fun _ => key23Down) 4 settledLeft)) (offset cfgLeft + 2) = 8) ∧
    (∀ i, i < ROWS_PER_HAND cfgLeft →
      slave_buffer cfgLeft (matrix_slave_scan cfgLeft key23Down
        (local_ticks cfgLeft (fun _ => key23Down) 4 settledLeft)) i
        = matrix_get_row (matrix_slave_scan cfgLeft key23Down
          (local_ticks cfgLeft (fun _ => key23Down) 4 settledLeft)) (offset cfgLeft + i)) :=
  ⟨⟨by decide, by decide⟩,
    (slave_scan_exposes_local_rows cfgLeft key23Down
      (local_ticks cfgLeft (fun _ => key23Down) 4 settledLeft)
      (by decide) (by decide)).2.2.2.1⟩

end Dactyl
